import Mathlib

/-! # Tic-tac-toe game tree: board rules, tree construction and minimax

A shallow embedding of `src/script.js`.

* A JavaScript array of cells is a `List Cell`.  Reading past the end of an
  array yields `undefined`, and writing past the end grows the array with
  holes, which every function of the script treats like `undefined`; the
  constructor `Cell.undef` stands for both.
* Cell indices are `Int`: `getEmptyCells` uses `-1` as a sentinel, and a
  write at a negative index, or at an index above `2^32 - 2` (the largest
  array index), sets a plain property and leaves the elements of an array
  untouched.
* The depth of a node is a `Nat`; the source computes `depth + 1` on doubles,
  which is the same below `2^53`.
* JavaScript numbers that may be `Infinity` or `-Infinity` are `Num`.
* `expand` mutates the node it is given; here it returns the node as it is
  after the call.  `null` is `none`.
-/

namespace TicTacToe

/-! ## Data model -/

/-- Value held by a cell of a board: the strings `''`, `'X'`, `'O'`, or
`undefined` (what a read of a hole or past the end of the array gives). -/
inductive Cell where
  | empty
  | x
  | o
  | undef
deriving DecidableEq, Repr

/-- The constant `EMPTY = ''`. -/
abbrev EMPTY : Cell := Cell.empty

/-- The constant `PLAYER_X = 'X'`. -/
abbrev PLAYER_X : Cell := Cell.x

/-- The constant `PLAYER_O = 'O'`. -/
abbrev PLAYER_O : Cell := Cell.o

/-- A JavaScript number as `minimax` produces it: an integer or one of the
two infinities. -/
inductive Num where
  | negInf
  | int (n : Int)
  | posInf
deriving DecidableEq, Repr

namespace Num

/-- The comparison `a > b` of JavaScript numbers. -/
def gt : Num → Num → Bool
  | negInf, _ => false
  | int _, negInf => true
  | int a, int b => decide (b < a)
  | int _, posInf => false
  | posInf, posInf => false
  | posInf, _ => true

/-- The function `Math.max(a, b)`. -/
def max (a b : Num) : Num := if gt b a then b else a

/-- The function `Math.min(a, b)`. -/
def min (a b : Num) : Num := if gt a b then b else a

end Num

/-- A node of the game tree, the object literal built by `createNode`. -/
structure Node where
  board : List Cell
  depth : Nat
  children : List Node
  move : Option Int
  value : Int
deriving Repr

/-! ## Array primitives -/

/-- The read `board[index]` for a non-negative index: `undefined` past the
end. -/
def arrayGet (board : List Cell) (index : Nat) : Cell :=
  board.getD index Cell.undef

/-- The write `a[index] = v` on an array: a negative index sets a property
and leaves the elements alone, an index within the array overwrites the
element, an index past the end and at most `4294967294 = 2^32 - 2`, the
largest array index, grows the array, the gap reading as `undefined`, and a
larger index again sets a property and leaves the elements alone.  (An array
has at most `2^32 - 1` elements, so an index within the array is an array
index.) -/
def arraySet (a : List Cell) (index : Int) (v : Cell) : List Cell :=
  if index < 0 then a
  else if index.toNat < a.length then a.set index.toNat v
  else if index ≤ 4294967294 then
    a ++ List.replicate (index.toNat - a.length) Cell.undef ++ [v]
  else a

/-! ## Rules engine and evaluator -/

/-- Source `getEmptyCells`: every cell is mapped to its index when it is
`EMPTY` and to `-1` otherwise, then the `-1` entries are filtered out. -/
def getEmptyCells (board : List Cell) : List Int :=
  (board.enum.map (fun (p : Nat × Cell) => if p.2 = EMPTY then (p.1 : Int) else -1)).filter
    (fun index => index ≠ -1)

/-- Source `makeMove`: copy the board, write `player` at `index` in the
copy, return the copy. -/
def makeMove (board : List Cell) (index : Int) (player : Cell) : List Cell :=
  let newBoard := board
  arraySet newBoard index player

/-- The table `wins` of `isWinning`. -/
def wins : List (List Nat) :=
  [[0, 1, 2], [3, 4, 5], [6, 7, 8],
   [0, 3, 6], [1, 4, 7], [2, 5, 8],
   [0, 4, 8], [2, 4, 6]]

/-- Source `isWinning`: some pattern has `player` in every one of its
cells. -/
def isWinning (board : List Cell) (player : Cell) : Bool :=
  wins.any (fun pattern => pattern.all (fun index => arrayGet board index = player))

/-- Source `isFull`: every cell differs from `EMPTY`. -/
def isFull (board : List Cell) : Bool :=
  board.all (fun cell => cell ≠ EMPTY)

/-- Source `evaluateBoard`. -/
def evaluateBoard (board : List Cell) : Int :=
  if isWinning board PLAYER_X then 9
  else if isWinning board PLAYER_O then -9
  else 0

/-! ## Tree builder -/

/-- Source `createNode`. -/
def createNode (board : List Cell) (depth : Nat) : Node :=
  { board := board
    depth := depth
    children := []
    move := none
    value := evaluateBoard board }

/-- The test at the head of `expand`: the node is not expanded. -/
def isTerminal (board : List Cell) : Bool :=
  isWinning board PLAYER_X || isWinning board PLAYER_O || isFull board

/-- The player `expand` lets move at a node of the given depth. -/
def nextPlayer (depth : Nat) : Cell :=
  if depth % 2 = 0 then PLAYER_X else PLAYER_O

/-- The child node `expand` creates for one empty cell, before it is itself
expanded. -/
def childNode (node : Node) (cell : Int) : Node :=
  let newBoard := makeMove node.board cell (nextPlayer node.depth)
  let childNode := createNode newBoard (node.depth + 1)
  { childNode with move := some cell }

/-- Source `expand`, with the recursion depth bounded by `fuel`.  The result
is the node after the call: its children list has one expanded child pushed
per empty cell. -/
def expandFuel : Nat → Node → Node
  | 0, node => node
  | fuel + 1, node =>
    if isTerminal node.board then node
    else
      let emptyCells := getEmptyCells node.board
      { node with
        children := node.children ++
          emptyCells.map (fun cell => expandFuel fuel (childNode node cell)) }

/-- Source `expand`.  Each recursive call is on a board with one empty cell
less, so one unit of fuel per empty cell plus one is never used up (see
`expand_eq`). -/
def expand (node : Node) : Node :=
  expandFuel ((getEmptyCells node.board).length + 1) node

/-- Source `buildTree`: the root after the call. -/
def buildTree (rootNode : Node) (maxDepth : Nat) : Node :=
  if rootNode.depth ≥ maxDepth then rootNode
  else expand rootNode

/-! ## Minimax selector -/

mutual
/-- Source `minimax`. -/
def minimax : Node → Bool → Num
  | ⟨board, _, children, _, _⟩, isMaximizing =>
    let score := evaluateBoard board
    if score = 9 then Num.int score
    else if score = -9 then Num.int score
    else if isFull board then Num.int 0
    else if isMaximizing then maxLoop children (!isMaximizing) Num.negInf
    else minLoop children (!isMaximizing) Num.posInf
/-- The loop `for (const child of node.children) best = Math.max(best, ...)`
of `minimax`, `flag` being the value of `!isMaximizing`. -/
def maxLoop : List Node → Bool → Num → Num
  | [], _, best => best
  | child :: rest, flag, best => maxLoop rest flag (Num.max best (minimax child flag))
/-- The loop `for (const child of node.children) best = Math.min(best, ...)`
of `minimax`, `flag` being the value of `!isMaximizing`. -/
def minLoop : List Node → Bool → Num → Num
  | [], _, best => best
  | child :: rest, flag, best => minLoop rest flag (Num.min best (minimax child flag))
end

/-- One iteration of the loop of `bestBranch` on the pair
`(bestMove, bestValue)`. -/
def bestStep (acc : Option Node × Num) (child : Node) : Option Node × Num :=
  let value := minimax child false
  if Num.gt value acc.2 then (some child, value) else acc

/-- Source `bestBranch`; `none` is `null`. -/
def bestBranch (node : Node) : Option Node :=
  if node.children.length = 0 then some node
  else (node.children.foldl bestStep (none, Num.negInf)).1

/-- The three scores of a decided or drawn game: 9, 0 and -9. -/
def Num.IsScore (v : Num) : Prop :=
  v = Num.int 9 ∨ v = Num.int 0 ∨ v = Num.int (-9)

/-- The order `a ≤ b` of JavaScript numbers: `a > b` is false (there is no
`NaN` among the values of `Num`). -/
def Num.le (a b : Num) : Prop :=
  Num.gt a b = false

/-! ## Trees as sets of nodes -/

mutual
/-- The node and all its descendants, in preorder. -/
def nodes : Node → List Node
  | ⟨board, depth, children, move, value⟩ =>
    ⟨board, depth, children, move, value⟩ :: nodesList children
/-- The nodes of a list of trees. -/
def nodesList : List Node → List Node
  | [] => []
  | child :: rest => nodes child ++ nodesList rest
end

mutual
/-- Every node of the tree together with the `move` fields met on the way
down to it from the given node (the given node's own `move` excluded). -/
def paths : Node → List (List (Option Int) × Node)
  | ⟨board, depth, children, move, value⟩ =>
    ([], ⟨board, depth, children, move, value⟩) :: pathsList children
/-- The paths into a list of children, each starting with the child's own
`move`. -/
def pathsList : List Node → List (List (Option Int) × Node)
  | [] => []
  | child :: rest =>
    (paths child).map (fun p => (child.move :: p.1, p.2)) ++ pathsList rest
end

/-- The player who moves after `player`. -/
def otherPlayer (player : Cell) : Cell :=
  if player = PLAYER_X then PLAYER_O else PLAYER_X

/-- Replaying a sequence of moves on a board with `makeMove`, the players
alternating from `player` on; `none` when a move is `null`. -/
def replay : List Cell → Cell → List (Option Int) → Option (List Cell)
  | board, _, [] => some board
  | _, _, none :: _ => none
  | board, player, some cell :: rest =>
    replay (makeMove board cell player) (otherPlayer player) rest

/-! ## Calls on a store of arrays -/

/-- A store of arrays; a reference to an array is its position in the
store. -/
abbrev Store := List (List Cell)

/-- Source `makeMove` on references: the spread `[...board]` allocates a new
array with the cells of the array `board` refers to, the assignment writes
into that new array only, and the reference to it is returned together with
the store as it is after the call. -/
def makeMoveStore (store : Store) (board : Nat) (index : Int) (player : Cell) :
    Store × Nat :=
  let newBoard := store.length
  let store1 := store ++ [store.getD board []]
  let store2 := store1.set newBoard (arraySet (store1.getD newBoard []) index player)
  (store2, newBoard)

/-- The failure the specification names for an invalid move. -/
inductive MoveError where
  | invalidMove
deriving DecidableEq, Repr

/-- Outcome of a call of `makeMove`.  The body has no test and no `throw`:
every call completes normally with the new board. -/
def makeMoveCall (board : List Cell) (index : Int) (player : Cell) :
    Except MoveError (List Cell) :=
  Except.ok (makeMove board index player)

/-! # Theorems -/

/-! ## Evaluator -/

/-- Claim C1: for every board, `evaluateBoard` is one of -9, 0, 9, and it is 9
exactly when the board is winning for X. -/
theorem evaluateBoard_range_and_nine_iff (B : List Cell) :
    (evaluateBoard B = -9 ∨ evaluateBoard B = 0 ∨ evaluateBoard B = 9) ∧
      (evaluateBoard B = 9 ↔ isWinning B PLAYER_X = true) := by
  unfold evaluateBoard
  by_cases hx : isWinning B PLAYER_X = true
  · simp [hx]
  · by_cases ho : isWinning B PLAYER_O = true
    · simp [hx, ho]
    · simp [hx, ho]

/-- Claim C2: `evaluateBoard` is -9 exactly when the board is winning for O
and not for X; when both players have a complete line it is 9; and it is 0
exactly when neither player has a complete line. -/
theorem evaluateBoard_cases (B : List Cell) :
    (evaluateBoard B = -9 ↔ (isWinning B PLAYER_O = true ∧ isWinning B PLAYER_X = false)) ∧
      (isWinning B PLAYER_X = true → isWinning B PLAYER_O = true → evaluateBoard B = 9) ∧
      (evaluateBoard B = 0 ↔ (isWinning B PLAYER_X = false ∧ isWinning B PLAYER_O = false)) := by
  unfold evaluateBoard
  by_cases hx : isWinning B PLAYER_X = true
  · simp [hx]
  · by_cases ho : isWinning B PLAYER_O = true
    · simp [hx, ho]
    · simp [hx, ho]

/-- Witness for C2: a board with a full row of X and a full row of O is
scored 9. -/
theorem evaluateBoard_cases_witness :
    evaluateBoard [Cell.x, Cell.x, Cell.x, Cell.o, Cell.o, Cell.o,
      Cell.empty, Cell.empty, Cell.empty] = 9 :=
  (evaluateBoard_cases [Cell.x, Cell.x, Cell.x, Cell.o, Cell.o, Cell.o,
      Cell.empty, Cell.empty, Cell.empty]).2.1 (by decide) (by decide)

/-! ## Move application -/

theorem makeMove_natCast (B : List Cell) (i : Nat) (p : Cell) (hi : i < B.length) :
    makeMove B (i : Int) p = B.set i p := by
  have h0 : ¬ ((i : Int) < 0) := by omega
  simp [makeMove, arraySet, h0, hi]

theorem makeMove_neg (B : List Cell) (i : Int) (p : Cell) (hi : i < 0) :
    makeMove B i p = B := by
  simp [makeMove, arraySet, hi]

theorem makeMove_past_end (B : List Cell) (i : Nat) (p : Cell) (hi : B.length ≤ i)
    (hmax : i ≤ 4294967294) :
    makeMove B (i : Int) p = B ++ List.replicate (i - B.length) Cell.undef ++ [p] := by
  have h0 : ¬ ((i : Int) < 0) := by omega
  have h1 : ¬ (i < B.length) := by omega
  have h2 : (i : Int) ≤ 4294967294 := by omega
  simp [makeMove, arraySet, h0, h1, h2]

theorem makeMove_above_max (B : List Cell) (i : Nat) (p : Cell) (hi : B.length ≤ i)
    (hmax : 4294967294 < i) : makeMove B (i : Int) p = B := by
  have h0 : ¬ ((i : Int) < 0) := by omega
  have h1 : ¬ (i < B.length) := by omega
  have h2 : ¬ ((i : Int) ≤ 4294967294) := by omega
  simp [makeMove, arraySet, h0, h1, h2]

theorem makeMoveStore_snd (store : Store) (r : Nat) (i : Int) (p : Cell) :
    (makeMoveStore store r i p).2 = store.length := rfl

theorem makeMoveStore_getD_old (store : Store) (r : Nat) (i : Int) (p : Cell)
    (q : Nat) (hq : q < store.length) :
    (makeMoveStore store r i p).1.getD q [] = store.getD q [] := by
  have hne : store.length ≠ q := by omega
  simp [makeMoveStore, List.getElem?_set_ne hne, List.getElem?_append_left hq]

theorem makeMoveStore_getD_new (store : Store) (r : Nat) (i : Int) (p : Cell) :
    (makeMoveStore store r i p).1.getD (makeMoveStore store r i p).2 [] =
      makeMove (store.getD r []) i p := by
  simp [makeMoveStore, makeMove, List.getElem?_set]

/-- Claim C3: on a 9-cell board and an index in 0..8, `makeMove` returns a
board of the same length with the player in the target cell and every other
cell as in the input; and the call leaves the input array, like every array
already in the store, with the cells it had before (the result is a newly
allocated array). -/
theorem makeMove_frame (B : List Cell) (i : Nat) (p : Cell)
    (hB : B.length = 9) (hi : i < 9) :
    (makeMove B (i : Int) p).length = B.length ∧
      arrayGet (makeMove B (i : Int) p) i = p ∧
      (∀ j : Nat, j ≠ i → arrayGet (makeMove B (i : Int) p) j = arrayGet B j) ∧
      (∀ (store : Store) (r : Nat), r < store.length → store.getD r [] = B →
        (makeMoveStore store r (i : Int) p).1.getD r [] = B ∧
        (∀ q : Nat, q < store.length →
          (makeMoveStore store r (i : Int) p).1.getD q [] = store.getD q []) ∧
        (makeMoveStore store r (i : Int) p).2 ≠ r ∧
        (makeMoveStore store r (i : Int) p).1.getD (makeMoveStore store r (i : Int) p).2 [] =
          makeMove B (i : Int) p) := by
  have hlt : i < B.length := by omega
  rw [makeMove_natCast B i p hlt]
  refine ⟨by simp, ?_, ?_, ?_⟩
  · simp [arrayGet, hlt]
  · intro j hj
    simp [arrayGet, List.getElem?_set_ne (Ne.symm hj)]
  · intro store r hr hrB
    refine ⟨?_, ?_, ?_, ?_⟩
    · rw [makeMoveStore_getD_old store r _ p r hr, hrB]
    · intro q hq
      exact makeMoveStore_getD_old store r _ p q hq
    · rw [makeMoveStore_snd]; omega
    · rw [makeMoveStore_getD_new, hrB, makeMove_natCast B i p hlt]

/-- Witness for C3: O played on cell 4 of a board whose cell 0 holds X, the
board being the only array of the store. -/
theorem makeMove_frame_witness :
    (makeMoveStore [[Cell.x, Cell.empty, Cell.empty, Cell.empty, Cell.empty, Cell.empty,
        Cell.empty, Cell.empty, Cell.empty]] 0 ((4 : Nat) : Int) Cell.o).1.getD 0 [] =
      [Cell.x, Cell.empty, Cell.empty, Cell.empty, Cell.empty, Cell.empty,
        Cell.empty, Cell.empty, Cell.empty] :=
  ((makeMove_frame [Cell.x, Cell.empty, Cell.empty, Cell.empty, Cell.empty, Cell.empty,
        Cell.empty, Cell.empty, Cell.empty] 4 Cell.o (by decide) (by decide)).2.2.2
    [[Cell.x, Cell.empty, Cell.empty, Cell.empty, Cell.empty, Cell.empty,
        Cell.empty, Cell.empty, Cell.empty]] 0 (by decide) rfl).1

/-- Counterexample to C4: a move on an occupied cell and a move at index 9
both complete normally and return a board; the first overwrites the X of
cell 0 by O, the second grows the board to ten cells. -/
theorem makeMoveCall_no_failure :
    arrayGet [Cell.x, Cell.empty, Cell.empty, Cell.empty, Cell.empty, Cell.empty,
        Cell.empty, Cell.empty, Cell.empty] 0 ≠ EMPTY ∧
      makeMoveCall [Cell.x, Cell.empty, Cell.empty, Cell.empty, Cell.empty, Cell.empty,
        Cell.empty, Cell.empty, Cell.empty] 0 PLAYER_O =
        Except.ok [Cell.o, Cell.empty, Cell.empty, Cell.empty, Cell.empty, Cell.empty,
          Cell.empty, Cell.empty, Cell.empty] ∧
      makeMoveCall [Cell.empty, Cell.empty, Cell.empty, Cell.empty, Cell.empty, Cell.empty,
        Cell.empty, Cell.empty, Cell.empty] 9 PLAYER_X =
        Except.ok [Cell.empty, Cell.empty, Cell.empty, Cell.empty, Cell.empty, Cell.empty,
          Cell.empty, Cell.empty, Cell.empty, Cell.x] := by
  refine ⟨by decide, ?_, ?_⟩
  · exact congrArg Except.ok (by decide)
  · exact congrArg Except.ok (by decide)

/-- Claim C4, amended: `makeMove` never fails and checks nothing, every call
returns a board.  With the index inside the board the target cell is
overwritten by the player whatever it held and the other cells are kept;
with the index past the end and at most `2^32 - 2` the board is grown to end
at that index, the player in the last cell and every cell before it reading
as it did in the input (`undefined` past the input's end); with a negative
index, or an index past the end above `2^32 - 2`, the cells are those of the
input. -/
theorem makeMoveCall_total (B : List Cell) (index : Int) (p : Cell) :
    makeMoveCall B index p = Except.ok (makeMove B index p) ∧
      (0 ≤ index → index.toNat < B.length →
        (makeMove B index p).length = B.length ∧
        arrayGet (makeMove B index p) index.toNat = p ∧
        ∀ j : Nat, j ≠ index.toNat → arrayGet (makeMove B index p) j = arrayGet B j) ∧
      (0 ≤ index → B.length ≤ index.toNat → index ≤ 4294967294 →
        (makeMove B index p).length = index.toNat + 1 ∧
        arrayGet (makeMove B index p) index.toNat = p ∧
        ∀ j : Nat, j < index.toNat → arrayGet (makeMove B index p) j = arrayGet B j) ∧
      (B.length ≤ index.toNat → 4294967294 < index → makeMove B index p = B) ∧
      (index < 0 → makeMove B index p = B) := by
  refine ⟨rfl, ?_, ?_, ?_, makeMove_neg B index p⟩
  · intro h0 hlt
    obtain ⟨i, rfl⟩ := Int.eq_ofNat_of_zero_le h0
    simp only [Int.toNat_ofNat] at hlt ⊢
    rw [makeMove_natCast B i p hlt]
    refine ⟨by simp, by simp [arrayGet, hlt], ?_⟩
    intro j hj
    simp [arrayGet, List.getElem?_set_ne (Ne.symm hj)]
  · intro h0 hge hmax
    obtain ⟨i, rfl⟩ := Int.eq_ofNat_of_zero_le h0
    simp only [Int.toNat_ofNat] at hge ⊢
    rw [makeMove_past_end B i p hge (by omega)]
    refine ⟨by simp; omega, ?_, ?_⟩
    · have hlen : (B ++ List.replicate (i - B.length) Cell.undef).length = i := by
        simp; omega
      simp only [arrayGet, List.getD_eq_getElem?_getD]
      rw [List.getElem?_append_right (by omega), hlen]
      simp
    · intro j hj
      simp only [arrayGet, List.getD_eq_getElem?_getD]
      have hlen : (B ++ List.replicate (i - B.length) Cell.undef).length = i := by
        simp; omega
      rw [List.getElem?_append_left (by omega)]
      rcases Nat.lt_or_ge j B.length with hjB | hjB
      · rw [List.getElem?_append_left hjB]
      · rw [List.getElem?_append_right hjB, List.getElem?_eq_none hjB]
        have hj2 : j - B.length < i - B.length := by omega
        simp [List.getElem?_replicate, hj2]
  · intro hge hmax
    have h0 : 0 ≤ index := by omega
    obtain ⟨i, rfl⟩ := Int.eq_ofNat_of_zero_le h0
    simp only [Int.toNat_ofNat] at hge
    exact makeMove_above_max B i p hge (by omega)

/-- Witness for C4: a write at index `2^32 - 1` on a 9-cell board returns the
cells of the input. -/
theorem makeMoveCall_total_witness :
    makeMove (List.replicate 9 EMPTY) 4294967295 PLAYER_X = List.replicate 9 EMPTY :=
  (makeMoveCall_total (List.replicate 9 EMPTY) 4294967295 PLAYER_X).2.2.2.1
    (by decide) (by decide)

/-! ## Empty cells -/

theorem getEmptyCells_enumFrom_cons (n : Nat) (c : Cell) (rest : List Cell) :
    (((c :: rest).enumFrom n).map
        (fun (p : Nat × Cell) => if p.2 = EMPTY then (p.1 : Int) else -1)).filter
        (fun index => index ≠ -1) =
      (if c = EMPTY then [(n : Int)] else []) ++
        ((rest.enumFrom (n + 1)).map
          (fun (p : Nat × Cell) => if p.2 = EMPTY then (p.1 : Int) else -1)).filter
          (fun index => index ≠ -1) := by
  by_cases hc : c = EMPTY
  · have hn : ¬ ((n : Int) = -1) := by omega
    simp [List.enumFrom_cons, hc, List.filter_cons, hn]
  · simp [List.enumFrom_cons, hc, List.filter_cons]

theorem mem_getEmptyCells_enumFrom (board : List Cell) (n : Nat) (x : Int) :
    x ∈ ((board.enumFrom n).map
        (fun (p : Nat × Cell) => if p.2 = EMPTY then (p.1 : Int) else -1)).filter
        (fun index => index ≠ -1) ↔
      ∃ i : Nat, x = ((n + i : Nat) : Int) ∧ board[i]? = some Cell.empty := by
  induction board generalizing n with
  | nil => simp
  | cons c rest ih =>
    rw [getEmptyCells_enumFrom_cons, List.mem_append, ih]
    constructor
    · rintro (h | ⟨i, hx, hi⟩)
      · by_cases hc : c = EMPTY
        · simp only [hc, if_true, List.mem_singleton] at h
          exact ⟨0, by simpa using h, by simp [hc]⟩
        · simp [hc] at h
      · exact ⟨i + 1, by rw [hx]; congr 1; omega, by simpa using hi⟩
    · rintro ⟨i, hx, hi⟩
      cases i with
      | zero =>
        left
        have hc : c = EMPTY := by simpa using hi
        simp [hc, hx]
      | succ j =>
        right
        exact ⟨j, by rw [hx]; congr 1; omega, by simpa using hi⟩

/-- An index is listed by `getEmptyCells` exactly when it is the position of
an `EMPTY` cell of the board. -/
theorem mem_getEmptyCells (board : List Cell) (x : Int) :
    x ∈ getEmptyCells board ↔ ∃ i : Nat, x = (i : Int) ∧ board[i]? = some Cell.empty := by
  unfold getEmptyCells List.enum
  rw [mem_getEmptyCells_enumFrom]
  simp

theorem length_getEmptyCells_enumFrom (board : List Cell) (n : Nat) :
    (((board.enumFrom n).map
        (fun (p : Nat × Cell) => if p.2 = EMPTY then (p.1 : Int) else -1)).filter
        (fun index => index ≠ -1)).length = board.count Cell.empty := by
  induction board generalizing n with
  | nil => simp
  | cons c rest ih =>
    rw [getEmptyCells_enumFrom_cons, List.length_append, ih, List.count_cons]
    by_cases hc : c = EMPTY
    · simp [hc]; omega
    · have : ¬ (c = Cell.empty) := hc
      simp [hc, this]

/-- The number of indices listed by `getEmptyCells` is the number of `EMPTY`
cells. -/
theorem length_getEmptyCells (board : List Cell) :
    (getEmptyCells board).length = board.count Cell.empty := by
  unfold getEmptyCells List.enum
  exact length_getEmptyCells_enumFrom board 0

theorem pairwise_getEmptyCells_enumFrom (board : List Cell) (n : Nat) :
    List.Pairwise (fun a b : Int => a < b)
      (((board.enumFrom n).map
        (fun (p : Nat × Cell) => if p.2 = EMPTY then (p.1 : Int) else -1)).filter
        (fun index => index ≠ -1)) := by
  induction board generalizing n with
  | nil => simp
  | cons c rest ih =>
    rw [getEmptyCells_enumFrom_cons]
    by_cases hc : c = EMPTY
    · simp only [hc, if_true, List.singleton_append, List.pairwise_cons]
      refine ⟨?_, ih (n + 1)⟩
      intro y hy
      rw [mem_getEmptyCells_enumFrom] at hy
      obtain ⟨i, hy, -⟩ := hy
      rw [hy]; omega
    · simp only [hc, if_false, List.nil_append]
      exact ih (n + 1)

/-- The indices listed by `getEmptyCells` are strictly ascending. -/
theorem pairwise_getEmptyCells (board : List Cell) :
    List.Pairwise (fun a b : Int => a < b) (getEmptyCells board) := by
  unfold getEmptyCells List.enum
  exact pairwise_getEmptyCells_enumFrom board 0

/-- A board is full exactly when it has no `EMPTY` cell. -/
theorem isFull_iff_count (board : List Cell) :
    isFull board = true ↔ board.count Cell.empty = 0 := by
  rw [List.count_eq_zero]
  unfold isFull
  simp only [List.all_eq_true, decide_eq_true_eq]
  constructor
  · intro h hmem
    exact h _ hmem rfl
  · intro h c hc heq
    have heq2 : c = Cell.empty := heq
    exact h (heq2 ▸ hc)

/-- Writing a player on an `EMPTY` cell removes exactly one empty cell. -/
theorem count_empty_makeMove (board : List Cell) (cell : Int) (p : Cell)
    (hcell : cell ∈ getEmptyCells board) (hp : p ≠ Cell.empty) :
    (makeMove board cell p).count Cell.empty + 1 = board.count Cell.empty := by
  rw [mem_getEmptyCells] at hcell
  obtain ⟨i, rfl, hi⟩ := hcell
  have hlt : i < board.length := by
    rcases Nat.lt_or_ge i board.length with h | h
    · exact h
    · rw [List.getElem?_eq_none h] at hi; cases hi
  have hget : board[i] = Cell.empty := by
    rw [List.getElem?_eq_getElem hlt] at hi
    exact Option.some.inj hi
  rw [makeMove_natCast board i p hlt, List.count_set _ _ _ _ hlt]
  have hpos : 0 < board.count Cell.empty :=
    List.count_pos_iff.mpr (hget ▸ List.getElem_mem hlt)
  simp [hget, hp]
  omega

theorem nextPlayer_ne_empty (depth : Nat) : nextPlayer depth ≠ Cell.empty := by
  unfold nextPlayer
  split <;> decide

/-! ## Structure of expanded trees -/

theorem expandFuel_board (fuel : Nat) (node : Node) :
    (expandFuel fuel node).board = node.board := by
  cases fuel with
  | zero => rfl
  | succ k => unfold expandFuel; split <;> rfl

theorem expandFuel_depth (fuel : Nat) (node : Node) :
    (expandFuel fuel node).depth = node.depth := by
  cases fuel with
  | zero => rfl
  | succ k => unfold expandFuel; split <;> rfl

theorem expandFuel_move (fuel : Nat) (node : Node) :
    (expandFuel fuel node).move = node.move := by
  cases fuel with
  | zero => rfl
  | succ k => unfold expandFuel; split <;> rfl

theorem expandFuel_value (fuel : Nat) (node : Node) :
    (expandFuel fuel node).value = node.value := by
  cases fuel with
  | zero => rfl
  | succ k => unfold expandFuel; split <;> rfl

theorem expandFuel_terminal (fuel : Nat) (node : Node)
    (h : isTerminal node.board = true) : expandFuel fuel node = node := by
  cases fuel with
  | zero => rfl
  | succ k => unfold expandFuel; simp [h]

theorem expandFuel_children (fuel : Nat) (node : Node)
    (h : isTerminal node.board = false) :
    (expandFuel (fuel + 1) node).children =
      node.children ++
        (getEmptyCells node.board).map (fun cell => expandFuel fuel (childNode node cell)) := by
  rw [expandFuel]; simp [h]

theorem isTerminal_of_count_zero (board : List Cell)
    (h : board.count Cell.empty = 0) : isTerminal board = true := by
  unfold isTerminal
  rw [(isFull_iff_count board).mpr h]
  simp

theorem count_pos_of_not_terminal (board : List Cell)
    (h : isTerminal board = false) : 0 < board.count Cell.empty := by
  rcases Nat.eq_zero_or_pos (board.count Cell.empty) with h0 | h0
  · rw [isTerminal_of_count_zero board h0] at h; cases h
  · exact h0

theorem getEmptyCells_ne_nil (board : List Cell)
    (h : isTerminal board = false) : getEmptyCells board ≠ [] := by
  intro hnil
  have hlen := length_getEmptyCells board
  rw [hnil] at hlen
  have := count_pos_of_not_terminal board h
  simp at hlen
  omega

theorem childNode_board (node : Node) (cell : Int) :
    (childNode node cell).board = makeMove node.board cell (nextPlayer node.depth) := rfl

theorem childNode_depth (node : Node) (cell : Int) :
    (childNode node cell).depth = node.depth + 1 := rfl

theorem childNode_move (node : Node) (cell : Int) :
    (childNode node cell).move = some cell := rfl

theorem childNode_children (node : Node) (cell : Int) :
    (childNode node cell).children = [] := rfl

theorem count_empty_childNode (node : Node) (cell : Int)
    (hcell : cell ∈ getEmptyCells node.board) :
    (childNode node cell).board.count Cell.empty + 1 = node.board.count Cell.empty :=
  count_empty_makeMove node.board cell _ hcell (nextPlayer_ne_empty node.depth)

/-- With at least as much fuel as empty cells plus one, more fuel changes
nothing: the fuel is never used up. -/
theorem expandFuel_stable (fuel : Nat) :
    ∀ (node : Node) (extra : Nat), node.board.count Cell.empty < fuel →
      expandFuel (fuel + extra) node = expandFuel fuel node := by
  induction fuel with
  | zero => intro node extra h; omega
  | succ k ih =>
    intro node extra h
    have hk : k + 1 + extra = (k + extra) + 1 := by omega
    rw [hk]
    by_cases ht : isTerminal node.board = true
    · rw [expandFuel_terminal _ _ ht, expandFuel_terminal _ _ ht]
    · have ht2 : isTerminal node.board = false := by simpa using ht
      rw [expandFuel, expandFuel]
      simp only [ht2, Bool.false_eq_true, if_false]
      congr 2
      apply List.map_congr_left
      intro cell hcell
      apply ih
      have := count_empty_childNode node cell hcell
      omega

/-- The recursion equation of the source `expand`: a terminal node is left
as it is, any other node gets one child per empty cell, each child being the
result of `expand` on the node created for that cell. -/
theorem expand_eq (node : Node) :
    expand node =
      if isTerminal node.board then node
      else { node with
        children := node.children ++
          (getEmptyCells node.board).map (fun cell => expand (childNode node cell)) } := by
  unfold expand
  by_cases ht : isTerminal node.board = true
  · rw [expandFuel_terminal _ _ ht]; simp [ht]
  · have ht2 : isTerminal node.board = false := by simpa using ht
    rw [expandFuel]
    simp only [ht2, Bool.false_eq_true, if_false]
    congr 2
    apply List.map_congr_left
    intro cell hcell
    have h1 := count_empty_childNode node cell hcell
    rw [length_getEmptyCells, length_getEmptyCells]
    have h2 : node.board.count Cell.empty = (childNode node cell).board.count Cell.empty + 1 := by
      omega
    rw [h2]

theorem buildTree_createNode_zero (B : List Cell) :
    buildTree (createNode B 0) 0 = createNode B 0 := by
  simp [buildTree]

theorem buildTree_createNode_pos (B : List Cell) (d : Nat) (hd : 1 ≤ d) :
    buildTree (createNode B 0) d = expand (createNode B 0) := by
  have h : ¬ ((createNode B 0).depth ≥ d) := by
    simp [createNode]; omega
  simp [buildTree, h]

theorem nodes_eq (node : Node) : nodes node = node :: nodesList node.children := by
  cases node; rw [nodes]

theorem nodesList_eq_flatMap (cs : List Node) : nodesList cs = cs.flatMap nodes := by
  induction cs with
  | nil => rw [nodesList]; rfl
  | cons c rest ih => rw [nodesList, ih, List.flatMap_cons]

theorem paths_eq (node : Node) : paths node = ([], node) :: pathsList node.children := by
  cases node; rw [paths]

theorem pathsList_eq_flatMap (cs : List Node) :
    pathsList cs =
      cs.flatMap (fun child => (paths child).map (fun p => (child.move :: p.1, p.2))) := by
  induction cs with
  | nil => rw [pathsList]; rfl
  | cons c rest ih => rw [pathsList, ih, List.flatMap_cons]

theorem mem_nodes_iff (node n : Node) :
    n ∈ nodes node ↔ n = node ∨ ∃ c ∈ node.children, n ∈ nodes c := by
  rw [nodes_eq, nodesList_eq_flatMap]
  simp

theorem nodes_of_no_children (node : Node) (h : node.children = []) :
    nodes node = [node] := by
  rw [nodes_eq, h, nodesList]

theorem paths_of_no_children (node : Node) (h : node.children = []) :
    paths node = [([], node)] := by
  rw [paths_eq, h, pathsList]

/-- Membership in an expanded tree: the root, or a node of the expansion of
the child created for some empty cell. -/
theorem mem_nodes_expandFuel (fuel : Nat) (node n : Node) (hc : node.children = [])
    (ht : isTerminal node.board = false) :
    n ∈ nodes (expandFuel (fuel + 1) node) ↔
      n = expandFuel (fuel + 1) node ∨
        ∃ cell ∈ getEmptyCells node.board, n ∈ nodes (expandFuel fuel (childNode node cell)) := by
  rw [mem_nodes_iff, expandFuel_children fuel node ht, hc]
  simp

/-- Every node of an expanded tree has the shape `expand` gives it: no
children when its board is terminal, otherwise one child per empty cell, in
the order of `getEmptyCells`, with that cell as `move`, the next depth, and
the board after the move of the player whose turn the depth says it is. -/
theorem expandFuel_node_shape (fuel : Nat) :
    ∀ node : Node, node.children = [] → node.board.count Cell.empty < fuel →
      ∀ n ∈ nodes (expandFuel fuel node),
        (isTerminal n.board = true → n.children = []) ∧
        (isTerminal n.board = false →
          n.children.map (fun c => (c.move, c.depth, c.board)) =
            (getEmptyCells n.board).map (fun cell =>
              (some cell, n.depth + 1, makeMove n.board cell (nextPlayer n.depth)))) := by
  induction fuel with
  | zero => intro node _ h; omega
  | succ k ih =>
    intro node hc hfuel n hn
    by_cases ht : isTerminal node.board = true
    · rw [expandFuel_terminal _ _ ht, nodes_of_no_children node hc, List.mem_singleton] at hn
      subst hn
      exact ⟨fun _ => hc, fun h => (by rw [ht] at h; cases h)⟩
    · have ht2 : isTerminal node.board = false := by simpa using ht
      rw [mem_nodes_expandFuel k node n hc ht2] at hn
      rcases hn with rfl | ⟨cell, hcell, hn⟩
      · rw [expandFuel_board, expandFuel_depth]
        refine ⟨fun h => (by rw [ht2] at h; cases h), fun _ => ?_⟩
        rw [expandFuel_children k node ht2, hc, List.nil_append, List.map_map]
        apply List.map_congr_left
        intro cell _
        simp only [Function.comp, expandFuel_move, expandFuel_depth, expandFuel_board,
          childNode_move, childNode_depth, childNode_board]
      · have hcount := count_empty_childNode node cell hcell
        exact ih (childNode node cell) (childNode_children node cell) (by omega) n hn

/-- The tree built from a fresh root: the root alone for the bound 0, the
full expansion for any other bound. -/
theorem buildTree_node_shape (B : List Cell) (d : Nat) (hd : 1 ≤ d) :
    ∀ n ∈ nodes (buildTree (createNode B 0) d),
      (isTerminal n.board = true → n.children = []) ∧
      (isTerminal n.board = false →
        n.children.map (fun c => (c.move, c.depth, c.board)) =
          (getEmptyCells n.board).map (fun cell =>
            (some cell, n.depth + 1, makeMove n.board cell (nextPlayer n.depth)))) := by
  rw [buildTree_createNode_pos B d hd]
  unfold expand
  apply expandFuel_node_shape _ (createNode B 0) rfl
  rw [length_getEmptyCells]
  exact Nat.lt_succ_self _

/-! ## Tree builder -/

/-- Counterpart of claim C5 on the code: with the depth bound 2 of the
script's own call, the tree built from a board with three empty cells has a
node at depth 3; the bound is only tested at the root. -/
theorem buildTree_exceeds_depth_bound :
    (nodes (buildTree (createNode [Cell.x, Cell.o, Cell.x, Cell.x, Cell.o, Cell.o,
        Cell.empty, Cell.empty, Cell.empty] 0) 2)).map Node.depth =
      [0, 1, 1, 2, 3, 2, 3, 1, 2, 3, 2] := by
  decide

/-- Claim C6: in a built tree every node without children and of depth below
the bound is terminal: its board is winning for X, winning for O, or full. -/
theorem buildTree_leaf_terminal (B : List Cell) (d : Nat) :
    ∀ n ∈ nodes (buildTree (createNode B 0) d), n.children = [] → n.depth < d →
      (isWinning n.board PLAYER_X = true ∨ isWinning n.board PLAYER_O = true ∨
        isFull n.board = true) := by
  intro n hn hleaf hdepth
  have hd : 1 ≤ d := by omega
  have hshape := (buildTree_node_shape B d hd n hn).2
  by_cases ht : isTerminal n.board = true
  · simpa [isTerminal, or_assoc] using ht
  · have ht2 : isTerminal n.board = false := by simpa using ht
    have h := hshape ht2
    rw [hleaf] at h
    have hne := getEmptyCells_ne_nil n.board ht2
    cases hcells : getEmptyCells n.board with
    | nil => exact absurd hcells hne
    | cons a rest => rw [hcells] at h; simp at h

/-- Witness for C6: the first child of the root built from a board with three
empty cells has no children and depth 1, below the bound 2; its board is
winning for X. -/
theorem buildTree_leaf_terminal_witness :
    isWinning [Cell.x, Cell.o, Cell.x, Cell.x, Cell.o, Cell.o, Cell.x, Cell.empty,
        Cell.empty] PLAYER_X = true ∨
      isWinning [Cell.x, Cell.o, Cell.x, Cell.x, Cell.o, Cell.o, Cell.x, Cell.empty,
        Cell.empty] PLAYER_O = true ∨
      isFull [Cell.x, Cell.o, Cell.x, Cell.x, Cell.o, Cell.o, Cell.x, Cell.empty,
        Cell.empty] = true :=
  buildTree_leaf_terminal
    [Cell.x, Cell.o, Cell.x, Cell.x, Cell.o, Cell.o, Cell.empty, Cell.empty, Cell.empty] 2
    { board := [Cell.x, Cell.o, Cell.x, Cell.x, Cell.o, Cell.o, Cell.x, Cell.empty, Cell.empty]
      depth := 1
      children := []
      move := some 6
      value := 9 }
    (List.mem_cons_of_mem _ (List.mem_cons_self _ _)) rfl (by decide)

theorem otherPlayer_nextPlayer (depth : Nat) :
    otherPlayer (nextPlayer depth) = nextPlayer (depth + 1) := by
  unfold otherPlayer nextPlayer
  rcases Nat.mod_two_eq_zero_or_one depth with h | h
  · have h1 : (depth + 1) % 2 = 1 := by omega
    simp [h, h1]
  · have h1 : (depth + 1) % 2 = 0 := by omega
    simp [h, h1]

theorem mem_paths_expandFuel (fuel : Nat) (node : Node) (p : List (Option Int) × Node)
    (hc : node.children = []) (ht : isTerminal node.board = false) :
    p ∈ paths (expandFuel (fuel + 1) node) ↔
      p = ([], expandFuel (fuel + 1) node) ∨
        ∃ cell ∈ getEmptyCells node.board,
          ∃ q ∈ paths (expandFuel fuel (childNode node cell)), p = (some cell :: q.1, q.2) := by
  rw [paths_eq, pathsList_eq_flatMap, expandFuel_children fuel node ht, hc]
  simp only [List.nil_append, List.mem_cons, List.mem_flatMap, List.mem_map,
    exists_exists_and_eq_and, expandFuel_move, childNode_move]
  constructor
  · rintro (h | ⟨cell, hcell, q, hq, rfl⟩)
    · exact Or.inl h
    · exact Or.inr ⟨cell, hcell, q, hq, rfl⟩
  · rintro (h | ⟨cell, hcell, q, hq, rfl⟩)
    · exact Or.inl h
    · exact Or.inr ⟨cell, hcell, q, hq, rfl⟩

/-- Replaying the moves met on the way down from a node of an expanded tree,
starting with the player to move at that node, gives the board reached. -/
theorem replay_paths_expandFuel (fuel : Nat) :
    ∀ node : Node, node.children = [] →
      ∀ p ∈ paths (expandFuel fuel node),
        replay node.board (nextPlayer node.depth) p.1 = some p.2.board := by
  induction fuel with
  | zero =>
    intro node hc p hp
    rw [expandFuel, paths_of_no_children node hc, List.mem_singleton] at hp
    subst hp
    rfl
  | succ k ih =>
    intro node hc p hp
    by_cases ht : isTerminal node.board = true
    · rw [expandFuel_terminal _ _ ht, paths_of_no_children node hc, List.mem_singleton] at hp
      subst hp
      rfl
    · have ht2 : isTerminal node.board = false := by simpa using ht
      rw [mem_paths_expandFuel k node p hc ht2] at hp
      rcases hp with rfl | ⟨cell, _, q, hq, rfl⟩
      · simp only [replay, expandFuel_board]
      · have h := ih (childNode node cell) (childNode_children node cell) q hq
        rw [childNode_board, childNode_depth] at h
        simp only [replay, otherPlayer_nextPlayer]
        exact h

theorem map_snd_pathsList (cs : List Node)
    (h : ∀ c ∈ cs, (paths c).map Prod.snd = nodes c) :
    (pathsList cs).map Prod.snd = nodesList cs := by
  induction cs with
  | nil => rw [pathsList, nodesList]; rfl
  | cons c rest ih =>
    rw [pathsList, nodesList, List.map_append, List.map_map,
      ih (fun c' hc' => h c' (List.mem_cons_of_mem _ hc'))]
    congr 1
    exact h c (List.mem_cons_self _ _)

/-- The paths of an expanded tree end at its nodes, one path per node. -/
theorem map_snd_paths_expandFuel (fuel : Nat) :
    ∀ node : Node, node.children = [] →
      (paths (expandFuel fuel node)).map Prod.snd = nodes (expandFuel fuel node) := by
  induction fuel with
  | zero =>
    intro node hc
    rw [expandFuel, paths_of_no_children node hc, nodes_of_no_children node hc]
    rfl
  | succ k ih =>
    intro node hc
    by_cases ht : isTerminal node.board = true
    · rw [expandFuel_terminal _ _ ht, paths_of_no_children node hc,
        nodes_of_no_children node hc]
      rfl
    · have ht2 : isTerminal node.board = false := by simpa using ht
      rw [paths_eq, nodes_eq, List.map_cons]
      congr 1
      apply map_snd_pathsList
      intro c hcmem
      rw [expandFuel_children k node ht2, hc, List.nil_append, List.mem_map] at hcmem
      obtain ⟨cell, _, rfl⟩ := hcmem
      exact ih (childNode node cell) (childNode_children node cell)

/-- Claim C7: for every node of a built tree, replaying on the root board the
`move` indices met from the root down to the node, as X, O, X, ... with X
first, gives exactly the board of the node; every node of the tree is the
end of one such path. -/
theorem buildTree_replay (B : List Cell) (d : Nat) :
    (∀ p ∈ paths (buildTree (createNode B 0) d), replay B PLAYER_X p.1 = some p.2.board) ∧
      (paths (buildTree (createNode B 0) d)).map Prod.snd =
        nodes (buildTree (createNode B 0) d) := by
  rcases Nat.eq_zero_or_pos d with rfl | hd
  · rw [buildTree_createNode_zero]
    have h0 := replay_paths_expandFuel 0 (createNode B 0) rfl
    have h1 := map_snd_paths_expandFuel 0 (createNode B 0) rfl
    exact ⟨h0, h1⟩
  · rw [buildTree_createNode_pos B d hd]
    exact ⟨replay_paths_expandFuel _ (createNode B 0) rfl,
      map_snd_paths_expandFuel _ (createNode B 0) rfl⟩

theorem buildTree_board (node : Node) (d : Nat) : (buildTree node d).board = node.board := by
  unfold buildTree expand
  split
  · rfl
  · exact expandFuel_board _ _

theorem buildTree_depth (node : Node) (d : Nat) : (buildTree node d).depth = node.depth := by
  unfold buildTree expand
  split
  · rfl
  · exact expandFuel_depth _ _

theorem self_mem_nodes (node : Node) : node ∈ nodes node := by
  rw [nodes_eq]; exact List.mem_cons_self _ _

/-- Claim C8: with a bound of at least 1, every non-terminal node of depth
below the bound has exactly one child per empty cell of its board, in the
ascending order of `getEmptyCells`; the child for a cell has that cell as
`move`, the next depth, and the board after the move of X at even depth, of
O at odd depth.  The root built from the empty board has 9 children, child
`k` with `move = k` and a board with X in cell `k` only. -/
theorem buildTree_children (B : List Cell) (d : Nat) (hd : 1 ≤ d) :
    (∀ n ∈ nodes (buildTree (createNode B 0) d),
      isWinning n.board PLAYER_X = false → isWinning n.board PLAYER_O = false →
      isFull n.board = false → n.depth < d →
        n.children.map (fun c => (c.move, c.depth, c.board)) =
          (getEmptyCells n.board).map (fun cell =>
            (some cell, n.depth + 1,
              makeMove n.board cell (if n.depth % 2 = 0 then PLAYER_X else PLAYER_O))) ∧
        List.Pairwise (fun a b : Int => a < b) (getEmptyCells n.board)) ∧
      ((buildTree (createNode (List.replicate 9 EMPTY) 0) d).children.length = 9 ∧
        (buildTree (createNode (List.replicate 9 EMPTY) 0) d).children.map
            (fun c => (c.move, c.board)) =
          (List.range 9).map (fun (k : Nat) =>
            (some (k : Int), (List.replicate 9 EMPTY).set k PLAYER_X)) ∧
        ∀ c ∈ (buildTree (createNode (List.replicate 9 EMPTY) 0) d).children,
          c.board.count PLAYER_X = 1 ∧ c.board.count PLAYER_O = 0) := by
  constructor
  · intro n hn hx ho hf _
    have ht : isTerminal n.board = false := by simp [isTerminal, hx, ho, hf]
    exact ⟨(buildTree_node_shape B d hd n hn).2 ht, pairwise_getEmptyCells n.board⟩
  · have hroot := (buildTree_node_shape (List.replicate 9 EMPTY) d hd _ (self_mem_nodes _)).2
    rw [buildTree_board, buildTree_depth] at hroot
    have h := hroot (by decide)
    have hmb : (buildTree (createNode (List.replicate 9 EMPTY) 0) d).children.map
        (fun c => (c.move, c.board)) =
        (List.range 9).map (fun (k : Nat) =>
          (some (k : Int), (List.replicate 9 EMPTY).set k PLAYER_X)) := by
      have h2 := congrArg (List.map (fun t : Option Int × Nat × List Cell => (t.1, t.2.2))) h
      rw [List.map_map] at h2
      exact h2.trans (by decide)
    refine ⟨?_, hmb, ?_⟩
    · have h2 := congrArg List.length hmb
      simpa using h2
    · intro c hc
      have hmem := List.mem_map_of_mem (fun c : Node => (c.move, c.board)) hc
      rw [hmb] at hmem
      have hall : ∀ t ∈ (List.range 9).map (fun (k : Nat) =>
          (some (k : Int), (List.replicate 9 EMPTY).set k PLAYER_X)),
          t.2.count PLAYER_X = 1 ∧ t.2.count PLAYER_O = 0 := by decide
      exact hall _ hmem

/-- Witness for C8: the bound 1 on the empty board. -/
theorem buildTree_children_witness :
    (buildTree (createNode (List.replicate 9 EMPTY) 0) 1).children.length = 9 :=
  (buildTree_children (List.replicate 9 EMPTY) 1 (by decide)).2.1

/-- Claim C9: the root built from a board that is winning for X, winning for
O, or full has no children, whatever the bound; on a board without `EMPTY`
cell and without winner `isFull` is true, `evaluateBoard` is 0 and the root
has no children. -/
theorem buildTree_terminal_root (B : List Cell) (d : Nat) :
    ((isWinning B PLAYER_X = true ∨ isWinning B PLAYER_O = true ∨ isFull B = true) →
      (buildTree (createNode B 0) d).children = []) ∧
    ((∀ c ∈ B, c ≠ EMPTY) → isWinning B PLAYER_X = false → isWinning B PLAYER_O = false →
      isFull B = true ∧ evaluateBoard B = 0 ∧
        (buildTree (createNode B 0) d).children = []) := by
  have key : isTerminal B = true → (buildTree (createNode B 0) d).children = [] := by
    intro ht
    unfold buildTree expand
    split
    · rfl
    · rw [expandFuel_terminal _ _ ht]; rfl
  constructor
  · intro h
    apply key
    simpa [isTerminal, or_assoc] using h
  · intro hB hx ho
    have hf : isFull B = true := by
      unfold isFull
      simpa using hB
    refine ⟨hf, ?_, key (by simp [isTerminal, hf])⟩
    simp [evaluateBoard, hx, ho]

/-- Witness for C9: a full board without winner. -/
theorem buildTree_terminal_root_witness :
    isFull [Cell.x, Cell.o, Cell.x, Cell.x, Cell.o, Cell.o, Cell.o, Cell.x, Cell.x] = true ∧
      evaluateBoard [Cell.x, Cell.o, Cell.x, Cell.x, Cell.o, Cell.o, Cell.o, Cell.x,
        Cell.x] = 0 ∧
      (buildTree (createNode [Cell.x, Cell.o, Cell.x, Cell.x, Cell.o, Cell.o, Cell.o, Cell.x,
        Cell.x] 0) 3).children = [] :=
  (buildTree_terminal_root [Cell.x, Cell.o, Cell.x, Cell.x, Cell.o, Cell.o, Cell.o, Cell.x,
    Cell.x] 3).2 (by decide) (by decide) (by decide)

/-! ## Minimax selector -/

theorem minimax_eq (node : Node) (isMaximizing : Bool) :
    minimax node isMaximizing =
      if evaluateBoard node.board = 9 then Num.int (evaluateBoard node.board)
      else if evaluateBoard node.board = -9 then Num.int (evaluateBoard node.board)
      else if isFull node.board then Num.int 0
      else if isMaximizing then maxLoop node.children (!isMaximizing) Num.negInf
      else minLoop node.children (!isMaximizing) Num.posInf := by
  cases node; rw [minimax]

theorem evaluateBoard_eq_zero_iff (B : List Cell) :
    evaluateBoard B = 0 ↔ (isWinning B PLAYER_X = false ∧ isWinning B PLAYER_O = false) := by
  unfold evaluateBoard
  by_cases hx : isWinning B PLAYER_X = true
  · simp [hx]
  · by_cases ho : isWinning B PLAYER_O = true
    · simp [hx, ho]
    · simp [hx, ho]

theorem evaluateBoard_of_not_terminal (B : List Cell) (h : isTerminal B = false) :
    evaluateBoard B = 0 ∧ isFull B = false := by
  unfold isTerminal at h
  simp only [Bool.or_eq_false_iff] at h
  exact ⟨(evaluateBoard_eq_zero_iff B).mpr h.1, h.2⟩

theorem minimax_of_terminal (node : Node) (m : Bool) (h : isTerminal node.board = true) :
    (minimax node m).IsScore := by
  rw [minimax_eq]
  unfold Num.IsScore
  split
  · next h9 => rw [h9]; exact Or.inl rfl
  · split
    · next h9 => rw [h9]; exact Or.inr (Or.inr rfl)
    · split
      · exact Or.inr (Or.inl rfl)
      · next h9 hm9 hf =>
        exfalso
        unfold isTerminal at h
        unfold evaluateBoard at h9 hm9
        by_cases hx : isWinning node.board PLAYER_X = true
        · simp [hx] at h9
        · by_cases ho : isWinning node.board PLAYER_O = true
          · simp [hx, ho] at hm9
          · simp [hx, ho, hf] at h

theorem max_isScore (a b : Num) (ha : a.IsScore ∨ a = Num.negInf) (hb : b.IsScore) :
    (Num.max a b).IsScore := by
  unfold Num.max
  split
  · exact hb
  · rcases ha with ha | rfl
    · exact ha
    · rename_i hgt
      exfalso
      apply hgt
      rcases hb with rfl | rfl | rfl <;> rfl

theorem min_isScore (a b : Num) (ha : a.IsScore ∨ a = Num.posInf) (hb : b.IsScore) :
    (Num.min a b).IsScore := by
  unfold Num.min
  split
  · exact hb
  · rcases ha with ha | rfl
    · exact ha
    · rename_i hgt
      exfalso
      apply hgt
      rcases hb with rfl | rfl | rfl <;> rfl

theorem maxLoop_isScore (cs : List Node) (flag : Bool) :
    ∀ best : Num, (∀ c ∈ cs, (minimax c flag).IsScore) →
      (best.IsScore ∨ (best = Num.negInf ∧ cs ≠ [])) → (maxLoop cs flag best).IsScore := by
  induction cs with
  | nil =>
    intro best _ hb
    rw [maxLoop]
    rcases hb with hb | ⟨_, hne⟩
    · exact hb
    · exact absurd rfl hne
  | cons c rest ih =>
    intro best hcs hb
    rw [maxLoop]
    apply ih _ (fun c' hc' => hcs c' (List.mem_cons_of_mem _ hc'))
    left
    apply max_isScore _ _ _ (hcs c (List.mem_cons_self _ _))
    rcases hb with hb | ⟨hb, _⟩
    · exact Or.inl hb
    · exact Or.inr hb

theorem minLoop_isScore (cs : List Node) (flag : Bool) :
    ∀ best : Num, (∀ c ∈ cs, (minimax c flag).IsScore) →
      (best.IsScore ∨ (best = Num.posInf ∧ cs ≠ [])) → (minLoop cs flag best).IsScore := by
  induction cs with
  | nil =>
    intro best _ hb
    rw [minLoop]
    rcases hb with hb | ⟨_, hne⟩
    · exact hb
    · exact absurd rfl hne
  | cons c rest ih =>
    intro best hcs hb
    rw [minLoop]
    apply ih _ (fun c' hc' => hcs c' (List.mem_cons_of_mem _ hc'))
    left
    apply min_isScore _ _ _ (hcs c (List.mem_cons_self _ _))
    rcases hb with hb | ⟨hb, _⟩
    · exact Or.inl hb
    · exact Or.inr hb

/-- On an expanded tree `minimax` returns 9, 0 or -9, never an infinity:
every node without children is terminal. -/
theorem minimax_expandFuel_isScore (fuel : Nat) :
    ∀ node : Node, node.children = [] → node.board.count Cell.empty < fuel →
      ∀ m : Bool, (minimax (expandFuel fuel node) m).IsScore := by
  induction fuel with
  | zero => intro node _ h; omega
  | succ k ih =>
    intro node hc hfuel m
    by_cases ht : isTerminal node.board = true
    · rw [expandFuel_terminal _ _ ht]
      exact minimax_of_terminal node m ht
    · have ht2 : isTerminal node.board = false := by simpa using ht
      obtain ⟨h0, hf⟩ := evaluateBoard_of_not_terminal node.board ht2
      have hkids : ∀ flag : Bool, ∀ c ∈ (getEmptyCells node.board).map
          (fun cell => expandFuel k (childNode node cell)), (minimax c flag).IsScore := by
        intro flag c hcmem
        rw [List.mem_map] at hcmem
        obtain ⟨cell, hcell, rfl⟩ := hcmem
        have hcount := count_empty_childNode node cell hcell
        exact ih (childNode node cell) (childNode_children node cell) (by omega) flag
      have hne : (getEmptyCells node.board).map
          (fun cell => expandFuel k (childNode node cell)) ≠ [] := by
        intro hnil
        exact getEmptyCells_ne_nil node.board ht2 (List.map_eq_nil_iff.mp hnil)
      rw [minimax_eq, expandFuel_board, expandFuel_children k node ht2, hc, List.nil_append]
      simp only [h0, hf]
      cases m with
      | true =>
        simp only [OfNat.zero_ne_ofNat, if_false, Bool.false_eq_true, if_true]
        exact maxLoop_isScore _ _ _ (hkids _) (Or.inr ⟨rfl, hne⟩)
      | false =>
        simp only [OfNat.zero_ne_ofNat, if_false, Bool.false_eq_true]
        exact minLoop_isScore _ _ _ (hkids _) (Or.inr ⟨rfl, hne⟩)

theorem foldl_bestStep_nine (c : Node) (cs : List Node)
    (h : ∀ c' ∈ cs, (minimax c' false).IsScore) :
    cs.foldl bestStep (some c, Num.int 9) = (some c, Num.int 9) := by
  induction cs with
  | nil => rfl
  | cons c' rest ih =>
    rw [List.foldl_cons]
    have hstep : bestStep (some c, Num.int 9) c' = (some c, Num.int 9) := by
      unfold bestStep
      rcases h c' (List.mem_cons_self _ _) with hv | hv | hv <;> rw [hv] <;> rfl
    rw [hstep]
    exact ih (fun c2 hc2 => h c2 (List.mem_cons_of_mem _ hc2))

/-- Claim C10: on the board `[X,X,Empty,O,O,Empty,Empty,Empty,Empty]` and
with any bound of at least 1, the root has exactly one child with `move = 2`;
that child is terminal (its board is winning for X and it has no children)
and `bestBranch` returns it. -/
theorem bestBranch_winning_move (d : Nat) (hd : 1 ≤ d) :
    ∃ c : Node,
      c ∈ (buildTree (createNode [Cell.x, Cell.x, Cell.empty, Cell.o, Cell.o, Cell.empty,
        Cell.empty, Cell.empty, Cell.empty] 0) d).children ∧
      c.move = some 2 ∧
      (∀ c' ∈ (buildTree (createNode [Cell.x, Cell.x, Cell.empty, Cell.o, Cell.o, Cell.empty,
        Cell.empty, Cell.empty, Cell.empty] 0) d).children, c'.move = some 2 → c' = c) ∧
      isWinning c.board PLAYER_X = true ∧
      c.children = [] ∧
      bestBranch (buildTree (createNode [Cell.x, Cell.x, Cell.empty, Cell.o, Cell.o,
        Cell.empty, Cell.empty, Cell.empty, Cell.empty] 0) d) = some c := by
  rw [buildTree_createNode_pos _ d hd]
  have hfuel : expand (createNode [Cell.x, Cell.x, Cell.empty, Cell.o, Cell.o, Cell.empty,
      Cell.empty, Cell.empty, Cell.empty] 0) =
      expandFuel 6 (createNode [Cell.x, Cell.x, Cell.empty, Cell.o, Cell.o, Cell.empty,
      Cell.empty, Cell.empty, Cell.empty] 0) := rfl
  rw [hfuel]
  generalize hroot : createNode [Cell.x, Cell.x, Cell.empty, Cell.o, Cell.o, Cell.empty,
      Cell.empty, Cell.empty, Cell.empty] 0 = root
  have hboard : root.board = [Cell.x, Cell.x, Cell.empty, Cell.o, Cell.o, Cell.empty,
      Cell.empty, Cell.empty, Cell.empty] := by rw [← hroot]; rfl
  have hkids0 : root.children = [] := by rw [← hroot]; rfl
  have hcells : getEmptyCells root.board = [2, 5, 6, 7, 8] := by rw [hboard]; decide
  have hterm : isTerminal root.board = false := by rw [hboard]; decide
  have hchildren : (expandFuel 6 root).children =
      childNode root 2 :: [expandFuel 5 (childNode root 5), expandFuel 5 (childNode root 6),
        expandFuel 5 (childNode root 7), expandFuel 5 (childNode root 8)] := by
    rw [expandFuel_children 5 root hterm, hkids0, hcells]
    have h2 : isTerminal (childNode root 2).board = true := by rw [← hroot]; decide
    simp only [List.nil_append, List.map_cons, List.map_nil, expandFuel_terminal 5 _ h2]
  have hrest : ∀ c' ∈ [expandFuel 5 (childNode root 5), expandFuel 5 (childNode root 6),
      expandFuel 5 (childNode root 7), expandFuel 5 (childNode root 8)],
      c'.move ≠ some 2 ∧ (minimax c' false).IsScore := by
    intro c' hc'
    have hcell : ∃ cell ∈ getEmptyCells root.board, cell ≠ 2 ∧
        c' = expandFuel 5 (childNode root cell) := by
      rw [hcells]
      simp only [List.mem_cons, List.mem_singleton, List.not_mem_nil, or_false] at hc'
      rcases hc' with rfl | rfl | rfl | rfl
      · exact ⟨5, by decide, by decide, rfl⟩
      · exact ⟨6, by decide, by decide, rfl⟩
      · exact ⟨7, by decide, by decide, rfl⟩
      · exact ⟨8, by decide, by decide, rfl⟩
    obtain ⟨cell, hmem, hne, rfl⟩ := hcell
    constructor
    · rw [expandFuel_move, childNode_move]
      intro h
      exact hne (Option.some.inj h)
    · have hcount := count_empty_childNode root cell hmem
      have hroot5 : root.board.count Cell.empty = 5 := by rw [hboard]; decide
      exact minimax_expandFuel_isScore 5 (childNode root cell) (childNode_children root cell)
        (by omega) false
  refine ⟨childNode root 2, ?_, rfl, ?_, ?_, rfl, ?_⟩
  · rw [hchildren]; exact List.mem_cons_self _ _
  · intro c' hc' hmove
    rw [hchildren, List.mem_cons] at hc'
    rcases hc' with h | h
    · exact h
    · exact absurd hmove (hrest c' h).1
  · rw [← hroot]; decide
  · unfold bestBranch
    rw [hchildren]
    have hstep : bestStep (none, Num.negInf) (childNode root 2) =
        (some (childNode root 2), Num.int 9) := by
      rw [← hroot]; rfl
    rw [if_neg (by simp), List.foldl_cons, hstep,
      foldl_bestStep_nine _ _ (fun c' hc' => (hrest c' hc').2)]

/-- Witness for C10: the bound 2 used by the script. -/
theorem bestBranch_winning_move_witness :
    ∃ c : Node,
      c ∈ (buildTree (createNode [Cell.x, Cell.x, Cell.empty, Cell.o, Cell.o, Cell.empty,
        Cell.empty, Cell.empty, Cell.empty] 0) 2).children ∧
      c.move = some 2 ∧
      (∀ c' ∈ (buildTree (createNode [Cell.x, Cell.x, Cell.empty, Cell.o, Cell.o, Cell.empty,
        Cell.empty, Cell.empty, Cell.empty] 0) 2).children, c'.move = some 2 → c' = c) ∧
      isWinning c.board PLAYER_X = true ∧
      c.children = [] ∧
      bestBranch (buildTree (createNode [Cell.x, Cell.x, Cell.empty, Cell.o, Cell.o,
        Cell.empty, Cell.empty, Cell.empty, Cell.empty] 0) 2) = some c :=
  bestBranch_winning_move 2 (by decide)

/-! ## Order of scores and the loops of the selector -/

theorem gt_irrefl (a : Num) : Num.gt a a = false := by
  cases a <;> simp [Num.gt]

theorem gt_trans (a b c : Num) (h1 : Num.gt a b = true) (h2 : Num.gt b c = true) :
    Num.gt a c = true := by
  cases a <;> cases b <;> cases c <;> simp [Num.gt] at *
  omega

theorem gt_of_gt_of_le (a b c : Num) (h1 : Num.gt a b = true) (h2 : Num.gt c b = false) :
    Num.gt a c = true := by
  cases a <;> cases b <;> cases c <;> simp [Num.gt] at *
  omega

theorem gt_asymm (a b : Num) (h : Num.gt a b = true) : Num.gt b a = false := by
  cases a <;> cases b <;> simp [Num.gt] at *
  omega

theorem le_trans_gt (a b c : Num) (h1 : Num.gt a b = false) (h2 : Num.gt b c = false) :
    Num.gt a c = false := by
  cases a <;> cases b <;> cases c <;> simp [Num.gt] at *
  omega

theorem eq_negInf_of_not_gt (a : Num) (h : Num.gt a Num.negInf = false) : a = Num.negInf := by
  cases a <;> simp [Num.gt] at * 

theorem eq_posInf_of_not_gt (a : Num) (h : Num.gt Num.posInf a = false) : a = Num.posInf := by
  cases a <;> simp [Num.gt] at *

theorem gt_negInf_of_ne (a : Num) (h : a ≠ Num.negInf) : Num.gt a Num.negInf = true := by
  cases a <;> simp [Num.gt] at *

/-- What the maximising loop of `minimax` returns: the start value or the
score of a child, at least the start value and at least every child's
score. -/
theorem maxLoop_spec (cs : List Node) (flag : Bool) :
    ∀ best : Num,
      (maxLoop cs flag best = best ∨ ∃ c ∈ cs, maxLoop cs flag best = minimax c flag) ∧
      Num.gt best (maxLoop cs flag best) = false ∧
      ∀ c ∈ cs, Num.gt (minimax c flag) (maxLoop cs flag best) = false := by
  induction cs with
  | nil =>
    intro best
    rw [maxLoop]
    exact ⟨Or.inl rfl, gt_irrefl best, fun c hc => absurd hc (List.not_mem_nil c)⟩
  | cons c rest ih =>
    intro best
    rw [maxLoop]
    obtain ⟨h1, h2, h3⟩ := ih (Num.max best (minimax c flag))
    have hmax : (Num.max best (minimax c flag) = best ∧ Num.gt (minimax c flag) best = false) ∨
        (Num.max best (minimax c flag) = minimax c flag ∧
          Num.gt (minimax c flag) best = true) := by
      unfold Num.max
      cases hgt : Num.gt (minimax c flag) best
      · left; simp
      · right; simp
    refine ⟨?_, ?_, ?_⟩
    · rcases h1 with h1 | ⟨c', hc', h1⟩
      · rcases hmax with ⟨hm, _⟩ | ⟨hm, _⟩
        · left; rw [h1, hm]
        · right; exact ⟨c, List.mem_cons_self _ _, by rw [h1, hm]⟩
      · right; exact ⟨c', List.mem_cons_of_mem _ hc', h1⟩
    · rcases hmax with ⟨hm, _⟩ | ⟨hm, hg⟩
      · rw [hm] at h2 ⊢; exact h2
      · rw [hm] at h2 ⊢
        exact le_trans_gt _ _ _ (gt_asymm _ _ hg) h2
    · intro c' hc'
      rcases List.mem_cons.mp hc' with rfl | hc'
      · rcases hmax with ⟨hm, hg⟩ | ⟨hm, _⟩
        · rw [hm] at h2 ⊢
          exact le_trans_gt _ _ _ hg h2
        · rw [hm] at h2 ⊢; exact h2
      · exact h3 c' hc'

/-- What the minimising loop of `minimax` returns: the start value or the
score of a child, at most the start value and at most every child's
score. -/
theorem minLoop_spec (cs : List Node) (flag : Bool) :
    ∀ best : Num,
      (minLoop cs flag best = best ∨ ∃ c ∈ cs, minLoop cs flag best = minimax c flag) ∧
      Num.gt (minLoop cs flag best) best = false ∧
      ∀ c ∈ cs, Num.gt (minLoop cs flag best) (minimax c flag) = false := by
  induction cs with
  | nil =>
    intro best
    rw [minLoop]
    exact ⟨Or.inl rfl, gt_irrefl best, fun c hc => absurd hc (List.not_mem_nil c)⟩
  | cons c rest ih =>
    intro best
    rw [minLoop]
    obtain ⟨h1, h2, h3⟩ := ih (Num.min best (minimax c flag))
    have hmin : (Num.min best (minimax c flag) = best ∧ Num.gt best (minimax c flag) = false) ∨
        (Num.min best (minimax c flag) = minimax c flag ∧
          Num.gt best (minimax c flag) = true) := by
      unfold Num.min
      cases hgt : Num.gt best (minimax c flag)
      · left; simp
      · right; simp
    refine ⟨?_, ?_, ?_⟩
    · rcases h1 with h1 | ⟨c', hc', h1⟩
      · rcases hmin with ⟨hm, _⟩ | ⟨hm, _⟩
        · left; rw [h1, hm]
        · right; exact ⟨c, List.mem_cons_self _ _, by rw [h1, hm]⟩
      · right; exact ⟨c', List.mem_cons_of_mem _ hc', h1⟩
    · rcases hmin with ⟨hm, _⟩ | ⟨hm, hg⟩
      · rw [hm] at h2 ⊢; exact h2
      · rw [hm] at h2 ⊢
        exact le_trans_gt _ _ _ h2 (gt_asymm _ _ hg)
    · intro c' hc'
      rcases List.mem_cons.mp hc' with rfl | hc'
      · rcases hmin with ⟨hm, hg⟩ | ⟨hm, _⟩
        · rw [hm] at h2 ⊢
          exact le_trans_gt _ _ _ h2 hg
        · rw [hm] at h2 ⊢; exact h2
      · exact h3 c' hc'

/-- Invariant of the loop of `bestBranch`: after the children `done` the
pair `(bestMove, bestValue)` is still `(null, -Infinity)` and every child
seen scored `-Infinity`, or it holds the first child of `done` with the
greatest score. -/
theorem foldl_bestStep_spec (cs : List Node) :
    ∀ (done : List Node) (acc : Option Node × Num),
      ((acc = (none, Num.negInf) ∧ ∀ c ∈ done, minimax c false = Num.negInf) ∨
        ∃ pre c post, done = pre ++ c :: post ∧ acc = (some c, minimax c false) ∧
          (∀ c' ∈ pre, Num.gt (minimax c false) (minimax c' false) = true) ∧
          (∀ c' ∈ post, Num.gt (minimax c' false) (minimax c false) = false)) →
      ((cs.foldl bestStep acc = (none, Num.negInf) ∧
          ∀ c ∈ done ++ cs, minimax c false = Num.negInf) ∨
        ∃ pre c post, done ++ cs = pre ++ c :: post ∧
          cs.foldl bestStep acc = (some c, minimax c false) ∧
          (∀ c' ∈ pre, Num.gt (minimax c false) (minimax c' false) = true) ∧
          (∀ c' ∈ post, Num.gt (minimax c' false) (minimax c false) = false)) := by
  induction cs with
  | nil =>
    intro done acc h
    simpa using h
  | cons x rest ih =>
    intro done acc h
    have hstep := ih (done ++ [x]) (bestStep acc x)
    rw [List.append_assoc, List.singleton_append] at hstep
    rw [List.foldl_cons]
    apply hstep
    rcases h with ⟨rfl, hdone⟩ | ⟨pre, c, post, rfl, rfl, hpre, hpost⟩
    · cases hgt : Num.gt (minimax x false) Num.negInf
      · left
        refine ⟨by simp [bestStep, hgt], ?_⟩
        intro c hc
        rcases List.mem_append.mp hc with hc | hc
        · exact hdone c hc
        · rw [List.mem_singleton.mp hc]
          exact eq_negInf_of_not_gt _ hgt
      · right
        refine ⟨done, x, [], rfl, by simp [bestStep, hgt], ?_, ?_⟩
        · intro c hc
          rw [hdone c hc]; exact hgt
        · intro c hc
          exact absurd hc (List.not_mem_nil c)
    · cases hgt : Num.gt (minimax x false) (minimax c false)
      · right
        refine ⟨pre, c, post ++ [x], by simp, by simp [bestStep, hgt], hpre, ?_⟩
        intro c' hc'
        rcases List.mem_append.mp hc' with hc' | hc'
        · exact hpost c' hc'
        · rw [List.mem_singleton.mp hc']; exact hgt
      · right
        refine ⟨pre ++ c :: post, x, [], rfl, by simp [bestStep, hgt], ?_, ?_⟩
        · intro c' hc'
          rcases List.mem_append.mp hc' with hc' | hc'
          · exact gt_trans _ _ _ hgt (hpre c' hc')
          · rcases List.mem_cons.mp hc' with rfl | hc'
            · exact hgt
            · exact gt_of_gt_of_le _ _ _ hgt (hpost c' hc')
        · intro c' hc'
          exact absurd hc' (List.not_mem_nil c')

/-- The result of `bestBranch` on a node with children: `null` when every
child scores `-Infinity`, otherwise the first child with the greatest
score. -/
theorem bestBranch_spec (node : Node) (hne : node.children ≠ []) :
    (bestBranch node = none ∧ ∀ c ∈ node.children, minimax c false = Num.negInf) ∨
      ∃ pre c post, node.children = pre ++ c :: post ∧ bestBranch node = some c ∧
        (∀ c' ∈ pre, Num.gt (minimax c false) (minimax c' false) = true) ∧
        (∀ c' ∈ post, Num.gt (minimax c' false) (minimax c false) = false) := by
  have hlen : ¬ (node.children.length = 0) := by
    intro h; exact hne (List.length_eq_zero.mp h)
  have h := foldl_bestStep_spec node.children [] (none, Num.negInf)
    (Or.inl ⟨rfl, fun c hc => absurd hc (List.not_mem_nil c)⟩)
  rw [List.nil_append] at h
  unfold bestBranch
  rw [if_neg hlen]
  rcases h with ⟨h1, h2⟩ | ⟨pre, c, post, h1, h2, h3, h4⟩
  · left; exact ⟨by rw [h1], h2⟩
  · right; exact ⟨pre, c, post, h1, by rw [h2], h3, h4⟩

/-! ## Minimax selector: claims -/

/-- Counterexample to C11: a root with one child whose only child is a
non-terminal node without children.  The child of the root scores
`-Infinity`, the strict comparison with the initial `-Infinity` fails, and
`bestBranch` returns `null` although the root has a child. -/
theorem bestBranch_null_with_child :
    minimax
        { board := [Cell.x, Cell.empty, Cell.empty, Cell.empty, Cell.empty, Cell.empty,
            Cell.empty, Cell.empty, Cell.empty]
          depth := 1
          children := [createNode [Cell.x, Cell.o, Cell.empty, Cell.empty, Cell.empty,
            Cell.empty, Cell.empty, Cell.empty, Cell.empty] 2]
          move := some 0
          value := 0 } false = Num.negInf ∧
      bestBranch
        { board := [Cell.empty, Cell.empty, Cell.empty, Cell.empty, Cell.empty, Cell.empty,
            Cell.empty, Cell.empty, Cell.empty]
          depth := 0
          children :=
            [{ board := [Cell.x, Cell.empty, Cell.empty, Cell.empty, Cell.empty, Cell.empty,
                 Cell.empty, Cell.empty, Cell.empty]
               depth := 1
               children := [createNode [Cell.x, Cell.o, Cell.empty, Cell.empty, Cell.empty,
                 Cell.empty, Cell.empty, Cell.empty, Cell.empty] 2]
               move := some 0
               value := 0 }]
          move := none
          value := 0 } = none := by
  exact ⟨by decide, rfl⟩

/-- Counterpart of claim C12 on the code: on the node created for the empty
board, which has no children and is neither won nor full, `minimax` returns
`-Infinity` when maximising and `Infinity` when minimising, while
`evaluateBoard` is 0. -/
theorem minimax_infinite_on_bounded_leaf :
    (createNode [Cell.empty, Cell.empty, Cell.empty, Cell.empty, Cell.empty, Cell.empty,
        Cell.empty, Cell.empty, Cell.empty] 0).children = [] ∧
      isTerminal [Cell.empty, Cell.empty, Cell.empty, Cell.empty, Cell.empty, Cell.empty,
        Cell.empty, Cell.empty, Cell.empty] = false ∧
      evaluateBoard [Cell.empty, Cell.empty, Cell.empty, Cell.empty, Cell.empty, Cell.empty,
        Cell.empty, Cell.empty, Cell.empty] = 0 ∧
      minimax (createNode [Cell.empty, Cell.empty, Cell.empty, Cell.empty, Cell.empty,
        Cell.empty, Cell.empty, Cell.empty, Cell.empty] 0) true = Num.negInf ∧
      minimax (createNode [Cell.empty, Cell.empty, Cell.empty, Cell.empty, Cell.empty,
        Cell.empty, Cell.empty, Cell.empty, Cell.empty] 0) false = Num.posInf := by
  exact ⟨rfl, by decide, by decide, by decide, by decide⟩

/-- Claim C13: whatever the children of a node, `minimax` returns 9 when
`evaluateBoard` of its board is 9, -9 when it is -9, and otherwise 0 when the
board is full; for both values of `isMaximizing`. -/
theorem minimax_terminal_priority (node : Node) (isMaximizing : Bool) :
    (evaluateBoard node.board = 9 → minimax node isMaximizing = Num.int 9) ∧
      (evaluateBoard node.board = -9 → minimax node isMaximizing = Num.int (-9)) ∧
      (evaluateBoard node.board ≠ 9 → evaluateBoard node.board ≠ -9 →
        isFull node.board = true → minimax node isMaximizing = Num.int 0) := by
  refine ⟨?_, ?_, ?_⟩
  · intro h
    rw [minimax_eq, if_pos h, h]
  · intro h
    have h9 : ¬ (evaluateBoard node.board = 9) := by rw [h]; decide
    rw [minimax_eq, if_neg h9, if_pos h, h]
  · intro h9 hm9 hf
    rw [minimax_eq, if_neg h9, if_neg hm9, if_pos hf]

/-- Witness for C13: a board won by X on a node that has a child scoring
`-Infinity`, and a full board without winner. -/
theorem minimax_terminal_priority_witness :
    minimax
        { board := [Cell.x, Cell.x, Cell.x, Cell.o, Cell.o, Cell.empty, Cell.empty,
            Cell.empty, Cell.empty]
          depth := 0
          children := [createNode [Cell.empty, Cell.empty, Cell.empty, Cell.empty,
            Cell.empty, Cell.empty, Cell.empty, Cell.empty, Cell.empty] 1]
          move := none
          value := 9 } true = Num.int 9 ∧
      minimax (createNode [Cell.x, Cell.o, Cell.x, Cell.x, Cell.o, Cell.o, Cell.o, Cell.x,
        Cell.x] 0) false = Num.int 0 :=
  ⟨(minimax_terminal_priority _ true).1 (by decide),
    (minimax_terminal_priority _ false).2.2 (by decide) (by decide) (by decide)⟩

/-- Claim C14: on a node whose board is neither won by a player nor full and
which has at least one child, `minimax(node, true)` is the maximum of
`minimax(child, false)` over the children (the score of some child, and at
least the score of every child), and `minimax(node, false)` is the minimum
of `minimax(child, true)` over the children. -/
theorem minimax_recursion (node : Node)
    (hx : isWinning node.board PLAYER_X = false) (ho : isWinning node.board PLAYER_O = false)
    (hf : isFull node.board = false) (hc : node.children ≠ []) :
    ((∃ c ∈ node.children, minimax node true = minimax c false) ∧
      ∀ c ∈ node.children, Num.le (minimax c false) (minimax node true)) ∧
    ((∃ c ∈ node.children, minimax node false = minimax c true) ∧
      ∀ c ∈ node.children, Num.le (minimax node false) (minimax c true)) := by
  have h0 : evaluateBoard node.board = 0 := (evaluateBoard_eq_zero_iff node.board).mpr ⟨hx, ho⟩
  have hmax : minimax node true = maxLoop node.children false Num.negInf := by
    rw [minimax_eq, h0]; simp [hf]
  have hmin : minimax node false = minLoop node.children true Num.posInf := by
    rw [minimax_eq, h0]; simp [hf]
  obtain ⟨c0, hc0⟩ := List.exists_mem_of_ne_nil _ hc
  constructor
  · rw [hmax]
    obtain ⟨h1, _, h3⟩ := maxLoop_spec node.children false Num.negInf
    refine ⟨?_, h3⟩
    rcases h1 with h1 | h1
    · have := h3 c0 hc0
      rw [h1] at this
      exact ⟨c0, hc0, by rw [h1, eq_negInf_of_not_gt _ this]⟩
    · exact h1
  · rw [hmin]
    obtain ⟨h1, _, h3⟩ := minLoop_spec node.children true Num.posInf
    refine ⟨?_, h3⟩
    rcases h1 with h1 | h1
    · have := h3 c0 hc0
      rw [h1] at this
      exact ⟨c0, hc0, by rw [h1, eq_posInf_of_not_gt _ this]⟩
    · exact h1

/-- Witness for C14: a node with two children, one won by X and one still
open; the scores of the children are 9 and `Infinity` when minimising, 9
and `-Infinity` when maximising. -/
theorem minimax_recursion_witness :
    ((∃ c ∈ [createNode [Cell.x, Cell.o, Cell.x, Cell.x, Cell.o, Cell.o, Cell.x, Cell.empty,
          Cell.empty] 1,
        createNode [Cell.x, Cell.o, Cell.x, Cell.x, Cell.o, Cell.o, Cell.empty, Cell.x,
          Cell.empty] 1],
        minimax
          { board := [Cell.x, Cell.o, Cell.x, Cell.x, Cell.o, Cell.o, Cell.empty, Cell.empty,
              Cell.empty]
            depth := 0
            children := [createNode [Cell.x, Cell.o, Cell.x, Cell.x, Cell.o, Cell.o, Cell.x,
                Cell.empty, Cell.empty] 1,
              createNode [Cell.x, Cell.o, Cell.x, Cell.x, Cell.o, Cell.o, Cell.empty, Cell.x,
                Cell.empty] 1]
            move := none
            value := 0 } true = minimax c false) ∧
      ∀ c ∈ [createNode [Cell.x, Cell.o, Cell.x, Cell.x, Cell.o, Cell.o, Cell.x, Cell.empty,
          Cell.empty] 1,
        createNode [Cell.x, Cell.o, Cell.x, Cell.x, Cell.o, Cell.o, Cell.empty, Cell.x,
          Cell.empty] 1],
        Num.le (minimax c false) (minimax
          { board := [Cell.x, Cell.o, Cell.x, Cell.x, Cell.o, Cell.o, Cell.empty, Cell.empty,
              Cell.empty]
            depth := 0
            children := [createNode [Cell.x, Cell.o, Cell.x, Cell.x, Cell.o, Cell.o, Cell.x,
                Cell.empty, Cell.empty] 1,
              createNode [Cell.x, Cell.o, Cell.x, Cell.x, Cell.o, Cell.o, Cell.empty, Cell.x,
                Cell.empty] 1]
            move := none
            value := 0 } true)) :=
  (minimax_recursion
    { board := [Cell.x, Cell.o, Cell.x, Cell.x, Cell.o, Cell.o, Cell.empty, Cell.empty,
        Cell.empty]
      depth := 0
      children := [createNode [Cell.x, Cell.o, Cell.x, Cell.x, Cell.o, Cell.o, Cell.x,
          Cell.empty, Cell.empty] 1,
        createNode [Cell.x, Cell.o, Cell.x, Cell.x, Cell.o, Cell.o, Cell.empty, Cell.x,
          Cell.empty] 1]
      move := none
      value := 0 } (by decide) (by decide) (by decide) (List.cons_ne_nil _ _)).1

/-! ## Invariants of expanded trees -/

/-- Every node of an expanded tree is itself the expansion, with enough
fuel, of a node without children that satisfies any property `P` which holds
at the root and passes from a non-terminal node to the children created for
its empty cells. -/
theorem nodes_expandFuel_invariant (P : Node → Prop)
    (hstep : ∀ (node : Node) (cell : Int), P node → isTerminal node.board = false →
      cell ∈ getEmptyCells node.board → P (childNode node cell))
    (fuel : Nat) :
    ∀ node : Node, P node → node.children = [] → node.board.count Cell.empty < fuel →
      ∀ n ∈ nodes (expandFuel fuel node),
        ∃ (fuel2 : Nat) (node2 : Node), P node2 ∧ node2.children = [] ∧
          node2.board.count Cell.empty < fuel2 ∧ n = expandFuel fuel2 node2 := by
  induction fuel with
  | zero => intro node _ _ h; omega
  | succ k ih =>
    intro node hP hc hfuel n hn
    by_cases ht : isTerminal node.board = true
    · rw [expandFuel_terminal _ _ ht, nodes_of_no_children node hc, List.mem_singleton] at hn
      subst hn
      exact ⟨k + 1, n, hP, hc, hfuel, (expandFuel_terminal _ _ ht).symm⟩
    · have ht2 : isTerminal node.board = false := by simpa using ht
      rw [mem_nodes_expandFuel k node n hc ht2] at hn
      rcases hn with rfl | ⟨cell, hcell, hn⟩
      · exact ⟨k + 1, node, hP, hc, hfuel, rfl⟩
      · have hcount := count_empty_childNode node cell hcell
        exact ih (childNode node cell) (hstep node cell hP ht2 hcell)
          (childNode_children node cell) (by omega) n hn

/-- The invariant of `nodes_expandFuel_invariant` on a built tree. -/
theorem nodes_buildTree_invariant (P : Node → Prop)
    (hstep : ∀ (node : Node) (cell : Int), P node → isTerminal node.board = false →
      cell ∈ getEmptyCells node.board → P (childNode node cell))
    (B : List Cell) (d : Nat) (hP : P (createNode B 0)) :
    ∀ n ∈ nodes (buildTree (createNode B 0) d),
      n = createNode B 0 ∨
        ∃ (fuel2 : Nat) (node2 : Node), P node2 ∧ node2.children = [] ∧
          node2.board.count Cell.empty < fuel2 ∧ n = expandFuel fuel2 node2 := by
  intro n hn
  rcases Nat.eq_zero_or_pos d with rfl | hd
  · rw [buildTree_createNode_zero, nodes_of_no_children _ rfl, List.mem_singleton] at hn
    exact Or.inl hn
  · rw [buildTree_createNode_pos B d hd] at hn
    unfold expand at hn
    right
    apply nodes_expandFuel_invariant P hstep _ (createNode B 0) hP rfl _ n hn
    rw [length_getEmptyCells]
    exact Nat.lt_succ_self _

theorem count_le_length (board : List Cell) : board.count Cell.empty ≤ board.length :=
  List.count_le_length _ _

/-- Claim C15: `expand` terminates: the node created for an empty cell has a
board with strictly fewer empty cells, and the result of the expansion is
the same with any amount of fuel above the number of empty cells, so the
recursion never runs out; every node of a tree built from a root of depth 0
has a depth of at most the number of empty cells of the root board, hence at
most 9 on a 9-cell board. -/
theorem expand_terminates (B : List Cell) (depth : Nat) (hB : B.length = 9) :
    (∀ (node : Node) (cell : Int), cell ∈ getEmptyCells node.board →
      (getEmptyCells (childNode node cell).board).length <
        (getEmptyCells node.board).length) ∧
    (∀ extra : Nat,
      expandFuel ((getEmptyCells B).length + 1 + extra) (createNode B depth) =
        expand (createNode B depth)) ∧
    (∀ (d : Nat), ∀ n ∈ nodes (buildTree (createNode B 0) d),
      n.depth ≤ (getEmptyCells B).length ∧ n.depth ≤ 9) := by
  refine ⟨?_, ?_, ?_⟩
  · intro node cell hcell
    have h := count_empty_childNode node cell hcell
    rw [length_getEmptyCells, length_getEmptyCells]
    omega
  · intro extra
    unfold expand
    apply expandFuel_stable
    show B.count Cell.empty < (getEmptyCells B).length + 1
    rw [length_getEmptyCells]
    exact Nat.lt_succ_self _
  · intro d n hn
    have hle : (getEmptyCells B).length ≤ 9 := by
      rw [length_getEmptyCells, ← hB]; exact count_le_length B
    have key : n.depth ≤ (getEmptyCells B).length := by
      rw [length_getEmptyCells]
      rcases nodes_buildTree_invariant
        (fun node => node.depth + node.board.count Cell.empty = B.count Cell.empty)
        (fun node cell hP _ hcell => by
          have h := count_empty_childNode node cell hcell
          have hP1 : node.depth + node.board.count Cell.empty = B.count Cell.empty := hP
          show (childNode node cell).depth + (childNode node cell).board.count Cell.empty =
            B.count Cell.empty
          rw [childNode_depth]
          omega)
        B d (by simp [createNode]) n hn with rfl | ⟨fuel2, node2, hP, _, _, rfl⟩
      · simp [createNode]
      · rw [expandFuel_depth]
        have hP2 : node2.depth + node2.board.count Cell.empty = B.count Cell.empty := hP
        omega
    exact ⟨key, le_trans key hle⟩

/-- Witness for C15: the empty board, expanded from depth 0 with three units
of fuel more than needed. -/
theorem expand_terminates_witness :
    expandFuel ((getEmptyCells (List.replicate 9 EMPTY)).length + 1 + 3)
        (createNode (List.replicate 9 EMPTY) 0) =
      expand (createNode (List.replicate 9 EMPTY) 0) :=
  (expand_terminates (List.replicate 9 EMPTY) 0 (by decide)).2.1 3

/-! ## Rules engine: claims -/

theorem arrayGet_eq_empty_iff (B : List Cell) (i : Nat) :
    arrayGet B i = EMPTY ↔ B[i]? = some Cell.empty := by
  unfold arrayGet
  rw [List.getD_eq_getElem?_getD]
  cases h : B[i]? with
  | none => simp
  | some c => simp

/-- Claim C16: the list returned by `getEmptyCells` is strictly ascending,
holds only valid indices of the board, and holds an index exactly when the
cell at that index is `EMPTY`; so `isFull` is true exactly when
`getEmptyCells` returns the empty list. -/
theorem getEmptyCells_spec (B : List Cell) :
    List.Pairwise (fun a b : Int => a < b) (getEmptyCells B) ∧
      (∀ x ∈ getEmptyCells B, 0 ≤ x ∧ x < (B.length : Int)) ∧
      (∀ i : Nat, (i : Int) ∈ getEmptyCells B ↔ arrayGet B i = EMPTY) ∧
      (isFull B = true ↔ getEmptyCells B = []) := by
  refine ⟨pairwise_getEmptyCells B, ?_, ?_, ?_⟩
  · intro x hx
    rw [mem_getEmptyCells] at hx
    obtain ⟨i, rfl, hi⟩ := hx
    have hlt : i < B.length := by
      rcases Nat.lt_or_ge i B.length with h | h
      · exact h
      · rw [List.getElem?_eq_none h] at hi; cases hi
    omega
  · intro i
    rw [mem_getEmptyCells, arrayGet_eq_empty_iff]
    constructor
    · rintro ⟨j, hj, h⟩
      have : i = j := by omega
      rw [this]; exact h
    · intro h
      exact ⟨i, rfl, h⟩
  · rw [isFull_iff_count, ← length_getEmptyCells, List.length_eq_zero]

/-- Claim C17: `isWinning` is true exactly when the player holds the three
cells of a row `3r, 3r+1, 3r+2`, of a column `c, c+3, c+6`, or of one of the
diagonals `0,4,8` and `2,4,6`; the table has these 8 triples and no other. -/
theorem isWinning_iff (B : List Cell) (p : Cell) :
    (isWinning B p = true ↔
      ((∃ r : Nat, r < 3 ∧ arrayGet B (3 * r) = p ∧ arrayGet B (3 * r + 1) = p ∧
          arrayGet B (3 * r + 2) = p) ∨
        (∃ c : Nat, c < 3 ∧ arrayGet B c = p ∧ arrayGet B (c + 3) = p ∧
          arrayGet B (c + 6) = p) ∨
        (arrayGet B 0 = p ∧ arrayGet B 4 = p ∧ arrayGet B 8 = p) ∨
        (arrayGet B 2 = p ∧ arrayGet B 4 = p ∧ arrayGet B 6 = p))) ∧
      wins.length = 8 := by
  refine ⟨?_, rfl⟩
  have hrow : (∃ r : Nat, r < 3 ∧ arrayGet B (3 * r) = p ∧ arrayGet B (3 * r + 1) = p ∧
      arrayGet B (3 * r + 2) = p) ↔
      ((arrayGet B 0 = p ∧ arrayGet B 1 = p ∧ arrayGet B 2 = p) ∨
        (arrayGet B 3 = p ∧ arrayGet B 4 = p ∧ arrayGet B 5 = p) ∨
        (arrayGet B 6 = p ∧ arrayGet B 7 = p ∧ arrayGet B 8 = p)) := by
    constructor
    · rintro ⟨r, hr, h⟩
      interval_cases r
      · exact Or.inl h
      · exact Or.inr (Or.inl h)
      · exact Or.inr (Or.inr h)
    · rintro (h | h | h)
      · exact ⟨0, by decide, h⟩
      · exact ⟨1, by decide, h⟩
      · exact ⟨2, by decide, h⟩
  have hcol : (∃ c : Nat, c < 3 ∧ arrayGet B c = p ∧ arrayGet B (c + 3) = p ∧
      arrayGet B (c + 6) = p) ↔
      ((arrayGet B 0 = p ∧ arrayGet B 3 = p ∧ arrayGet B 6 = p) ∨
        (arrayGet B 1 = p ∧ arrayGet B 4 = p ∧ arrayGet B 7 = p) ∨
        (arrayGet B 2 = p ∧ arrayGet B 5 = p ∧ arrayGet B 8 = p)) := by
    constructor
    · rintro ⟨c, hc, h⟩
      interval_cases c
      · exact Or.inl h
      · exact Or.inr (Or.inl h)
      · exact Or.inr (Or.inr h)
    · rintro (h | h | h)
      · exact ⟨0, by decide, h⟩
      · exact ⟨1, by decide, h⟩
      · exact ⟨2, by decide, h⟩
  rw [hrow, hcol]
  simp only [isWinning, wins, List.any_cons, List.any_nil, List.all_cons, List.all_nil,
    Bool.or_eq_true, Bool.and_eq_true, decide_eq_true_eq, Bool.or_false, Bool.and_true,
    or_assoc]

/-! ## Tree builder: values, scores and winners -/

/-- Claim C18: in a built tree the `value` of every node is `evaluateBoard`
of its own board, not its minimax score: the root built from
`[X,O,X,X,O,O,Empty,Empty,Empty]` has value 0 and minimax score 9. -/
theorem node_value_static (B : List Cell) (d : Nat) :
    (∀ n ∈ nodes (buildTree (createNode B 0) d), n.value = evaluateBoard n.board) ∧
      ((buildTree (createNode [Cell.x, Cell.o, Cell.x, Cell.x, Cell.o, Cell.o, Cell.empty,
          Cell.empty, Cell.empty] 0) 2).value = 0 ∧
        minimax (buildTree (createNode [Cell.x, Cell.o, Cell.x, Cell.x, Cell.o, Cell.o,
          Cell.empty, Cell.empty, Cell.empty] 0) 2) true = Num.int 9) := by
  refine ⟨?_, by decide, by decide⟩
  intro n hn
  rcases nodes_buildTree_invariant (fun node => node.value = evaluateBoard node.board)
    (fun node cell _ _ _ => rfl) B d rfl n hn with rfl | ⟨fuel2, node2, hP, _, _, rfl⟩
  · rfl
  · rw [expandFuel_value, expandFuel_board]
    exact hP

theorem mem_nodes_of_mem_children (node c : Node) (hc : c ∈ node.children) :
    c ∈ nodes node := by
  rw [mem_nodes_iff]
  exact Or.inr ⟨c, hc, self_mem_nodes c⟩

/-- Claim C19: in a tree built from a 9-cell board with a bound of at least
1, `minimax` of every node is 9, 0 or -9 for both values of `isMaximizing`,
never an infinity; and `bestBranch` of the root is not `null`: it is the
root when the root board is terminal, a direct child of the root
otherwise. -/
theorem buildTree_scores_finite (B : List Cell) (d : Nat) (_hB : B.length = 9)
    (hd : 1 ≤ d) :
    (∀ n ∈ nodes (buildTree (createNode B 0) d), ∀ m : Bool,
      minimax n m = Num.int 9 ∨ minimax n m = Num.int 0 ∨ minimax n m = Num.int (-9)) ∧
    (isTerminal B = true →
      bestBranch (buildTree (createNode B 0) d) = some (buildTree (createNode B 0) d)) ∧
    (isTerminal B = false →
      ∃ c ∈ (buildTree (createNode B 0) d).children,
        bestBranch (buildTree (createNode B 0) d) = some c) := by
  have hscore : ∀ n ∈ nodes (buildTree (createNode B 0) d), ∀ m : Bool,
      (minimax n m).IsScore := by
    intro n hn m
    rw [buildTree_createNode_pos B d hd] at hn
    unfold expand at hn
    obtain ⟨fuel2, node2, _, hc2, hfuel2, rfl⟩ :=
      nodes_expandFuel_invariant (fun _ => True) (fun _ _ _ _ _ => trivial) _
        (createNode B 0) trivial rfl
        (by rw [length_getEmptyCells]; exact Nat.lt_succ_self _) n hn
    exact minimax_expandFuel_isScore fuel2 node2 hc2 hfuel2 m
  refine ⟨hscore, ?_, ?_⟩
  · intro ht
    have hroot : buildTree (createNode B 0) d = createNode B 0 := by
      rw [buildTree_createNode_pos B d hd]
      unfold expand
      exact expandFuel_terminal _ _ ht
    rw [hroot]
    rfl
  · intro ht
    have hne : (buildTree (createNode B 0) d).children ≠ [] := by
      rw [buildTree_createNode_pos B d hd]
      unfold expand
      rw [expandFuel_children _ _ ht]
      intro hnil
      have h2 := List.append_eq_nil.mp hnil
      exact getEmptyCells_ne_nil B ht (List.map_eq_nil_iff.mp h2.2)
    rcases bestBranch_spec _ hne with ⟨_, hall⟩ | ⟨pre, c, post, hsplit, hbest, _, _⟩
    · exfalso
      obtain ⟨c0, hc0⟩ := List.exists_mem_of_ne_nil _ hne
      have h1 := hscore c0 (mem_nodes_of_mem_children _ c0 hc0) false
      rw [hall c0 hc0] at h1
      rcases h1 with h1 | h1 | h1 <;> cases h1
    · refine ⟨c, ?_, hbest⟩
      rw [hsplit]
      exact List.mem_append_right _ (List.mem_cons_self _ _)

/-- Witness for C19: the empty board with the bound 2 of the script. -/
theorem buildTree_scores_finite_witness :
    ∃ c ∈ (buildTree (createNode (List.replicate 9 EMPTY) 0) 2).children,
      bestBranch (buildTree (createNode (List.replicate 9 EMPTY) 0) 2) = some c :=
  (buildTree_scores_finite (List.replicate 9 EMPTY) 2 (by decide) (by decide)).2.2 (by decide)

/-- A move on an empty cell completes no line for a player other than the
one who moved. -/
theorem isWinning_of_makeMove_other (board : List Cell) (cell : Int) (p q : Cell)
    (hcell : cell ∈ getEmptyCells board) (hq : q ≠ p)
    (hwin : isWinning (makeMove board cell p) q = true) : isWinning board q = true := by
  rw [mem_getEmptyCells] at hcell
  obtain ⟨i, rfl, hi⟩ := hcell
  have hlt : i < board.length := by
    rcases Nat.lt_or_ge i board.length with h | h
    · exact h
    · rw [List.getElem?_eq_none h] at hi; cases hi
  rw [makeMove_natCast board i p hlt] at hwin
  unfold isWinning at hwin ⊢
  rw [List.any_eq_true] at hwin ⊢
  obtain ⟨pattern, hmem, hall⟩ := hwin
  refine ⟨pattern, hmem, ?_⟩
  rw [List.all_eq_true] at hall ⊢
  intro index hindex
  have h := hall index hindex
  simp only [decide_eq_true_eq] at h ⊢
  by_cases hii : index = i
  · exfalso
    rw [hii] at h
    apply hq
    rw [← h]
    simp [arrayGet, hlt]
  · rw [← h]
    simp [arrayGet, List.getElem?_set_ne (Ne.symm hii)]

theorem not_winning_of_not_terminal (board : List Cell) (h : isTerminal board = false) :
    isWinning board PLAYER_X = false ∧ isWinning board PLAYER_O = false := by
  unfold isTerminal at h
  simp only [Bool.or_eq_false_iff] at h
  exact h.1

/-- The winner at a node can only be the player who moved last: the property
passes from a non-terminal node to the children `expand` creates. -/
theorem winner_parity_step (node : Node) (cell : Int)
    (ht : isTerminal node.board = false) (hcell : cell ∈ getEmptyCells node.board) :
    (isWinning (childNode node cell).board PLAYER_X = true →
      (childNode node cell).depth % 2 = 1) ∧
    (isWinning (childNode node cell).board PLAYER_O = true →
      (childNode node cell).depth % 2 = 0 ∧ 0 < (childNode node cell).depth) := by
  obtain ⟨hx, ho⟩ := not_winning_of_not_terminal node.board ht
  rw [childNode_board, childNode_depth]
  rcases Nat.mod_two_eq_zero_or_one node.depth with hpar | hpar
  · have hp : nextPlayer node.depth = PLAYER_X := by simp [nextPlayer, hpar]
    rw [hp]
    constructor
    · intro _; omega
    · intro hwin
      have := isWinning_of_makeMove_other node.board cell PLAYER_X PLAYER_O hcell
        (by decide) hwin
      rw [ho] at this; cases this
  · have hp : nextPlayer node.depth = PLAYER_O := by simp [nextPlayer, hpar]
    rw [hp]
    constructor
    · intro hwin
      have := isWinning_of_makeMove_other node.board cell PLAYER_O PLAYER_X hcell
        (by decide) hwin
      rw [hx] at this; cases this
    · intro _; omega

/-- Claim C20: in a tree built from a 9-cell board on which no player has a
complete line, no node has a board winning for both players, every node
whose board is winning has no children, and the winner is the player who
moved last: X at odd depth, O at even positive depth. -/
theorem buildTree_winner_moved_last (B : List Cell) (d : Nat) (_hB : B.length = 9)
    (hx : isWinning B PLAYER_X = false) (ho : isWinning B PLAYER_O = false) :
    ∀ n ∈ nodes (buildTree (createNode B 0) d),
      ¬ (isWinning n.board PLAYER_X = true ∧ isWinning n.board PLAYER_O = true) ∧
      ((isWinning n.board PLAYER_X = true ∨ isWinning n.board PLAYER_O = true) →
        n.children = []) ∧
      (isWinning n.board PLAYER_X = true → n.depth % 2 = 1) ∧
      (isWinning n.board PLAYER_O = true → n.depth % 2 = 0 ∧ 0 < n.depth) := by
  intro n hn
  have hroot : (isWinning (createNode B 0).board PLAYER_X = true →
        (createNode B 0).depth % 2 = 1) ∧
      (isWinning (createNode B 0).board PLAYER_O = true →
        (createNode B 0).depth % 2 = 0 ∧ 0 < (createNode B 0).depth) := by
    constructor
    · intro h
      have h2 : isWinning B PLAYER_X = true := h
      rw [hx] at h2; cases h2
    · intro h
      have h2 : isWinning B PLAYER_O = true := h
      rw [ho] at h2; cases h2
  have key : ∃ node2 : Node, n.board = node2.board ∧ n.depth = node2.depth ∧
      (isTerminal node2.board = true → n.children = []) ∧
      (isWinning node2.board PLAYER_X = true → node2.depth % 2 = 1) ∧
      (isWinning node2.board PLAYER_O = true → node2.depth % 2 = 0 ∧ 0 < node2.depth) := by
    rcases nodes_buildTree_invariant
      (fun node => (isWinning node.board PLAYER_X = true → node.depth % 2 = 1) ∧
        (isWinning node.board PLAYER_O = true → node.depth % 2 = 0 ∧ 0 < node.depth))
      (fun node cell _ ht hcell => winner_parity_step node cell ht hcell)
      B d hroot n hn with rfl | ⟨fuel2, node2, hP, hc2, _, rfl⟩
    · exact ⟨createNode B 0, rfl, rfl, fun _ => rfl, hroot.1, hroot.2⟩
    · refine ⟨node2, expandFuel_board _ _, expandFuel_depth _ _, ?_, hP.1, hP.2⟩
      intro ht
      rw [expandFuel_terminal _ _ ht]
      exact hc2
  obtain ⟨node2, hb, hdep, hterm, hX, hO⟩ := key
  rw [hb, hdep]
  refine ⟨?_, ?_, hX, hO⟩
  · rintro ⟨h1, h2⟩
    have := hX h1
    have := (hO h2).1
    omega
  · intro h
    apply hterm
    unfold isTerminal
    rcases h with h | h
    · simp [h]
    · simp [h]

/-- Witness for C20: the node reached by X playing cell 6 on
`[X,O,X,X,O,O,Empty,Empty,Empty]` is won by X at depth 1 and has no
children. -/
theorem buildTree_winner_moved_last_witness :
    ({ board := [Cell.x, Cell.o, Cell.x, Cell.x, Cell.o, Cell.o, Cell.x, Cell.empty,
          Cell.empty]
       depth := 1
       children := []
       move := some 6
       value := 9 } : Node).children = [] :=
  (buildTree_winner_moved_last
    [Cell.x, Cell.o, Cell.x, Cell.x, Cell.o, Cell.o, Cell.empty, Cell.empty, Cell.empty] 2
    (by decide) (by decide) (by decide)
    { board := [Cell.x, Cell.o, Cell.x, Cell.x, Cell.o, Cell.o, Cell.x, Cell.empty, Cell.empty]
      depth := 1
      children := []
      move := some 6
      value := 9 }
    (List.mem_cons_of_mem _ (List.mem_cons_self _ _))).2.1 (Or.inl (by decide))

/-! ## Best branch -/

/-- Claim C11, amended: `bestBranch` returns the node itself when it has no
children; when some child scores above `-Infinity` it returns a child whose
score is at least the score of every child and strictly greater than the
score of every child before it (the first child with the greatest score);
and at every node of a tree built by `createNode` and `buildTree` every
child scores above `-Infinity`. -/
theorem bestBranch_first_max (node : Node) :
    (node.children = [] → bestBranch node = some node) ∧
      ((∃ c0 ∈ node.children, minimax c0 false ≠ Num.negInf) →
        ∃ pre c post, node.children = pre ++ c :: post ∧ bestBranch node = some c ∧
          (∀ c' ∈ node.children, Num.le (minimax c' false) (minimax c false)) ∧
          (∀ c' ∈ pre, Num.gt (minimax c false) (minimax c' false) = true)) ∧
      (∀ (B : List Cell) (d : Nat), node ∈ nodes (buildTree (createNode B 0) d) →
        ∀ c ∈ node.children, minimax c false ≠ Num.negInf) := by
  refine ⟨?_, ?_, ?_⟩
  · intro h
    unfold bestBranch
    rw [h]
    rfl
  · rintro ⟨c0, hc0, hne0⟩
    have hne : node.children ≠ [] := List.ne_nil_of_mem hc0
    rcases bestBranch_spec node hne with ⟨_, hall⟩ | ⟨pre, c, post, hsplit, hbest, hpre, hpost⟩
    · exact absurd (hall c0 hc0) hne0
    · refine ⟨pre, c, post, hsplit, hbest, ?_, hpre⟩
      intro c' hc'
      rw [hsplit] at hc'
      rcases List.mem_append.mp hc' with h | h
      · exact gt_asymm _ _ (hpre c' h)
      · rcases List.mem_cons.mp h with rfl | h
        · exact gt_irrefl _
        · exact hpost c' h
  · intro B d hn c hc
    have hscore : (minimax c false).IsScore := by
      rcases nodes_buildTree_invariant (fun _ => True) (fun _ _ _ _ _ => trivial) B d trivial
        node hn with rfl | ⟨fuel2, node2, _, hc2, hfuel2, rfl⟩
      · exact absurd hc (List.not_mem_nil c)
      · cases fuel2 with
        | zero => omega
        | succ k =>
          by_cases ht : isTerminal node2.board = true
          · rw [expandFuel_terminal _ _ ht, hc2] at hc
            exact absurd hc (List.not_mem_nil c)
          · have ht2 : isTerminal node2.board = false := by simpa using ht
            rw [expandFuel_children k node2 ht2, hc2, List.nil_append, List.mem_map] at hc
            obtain ⟨cell, hcell, rfl⟩ := hc
            have hcount := count_empty_childNode node2 cell hcell
            exact minimax_expandFuel_isScore k (childNode node2 cell)
              (childNode_children node2 cell) (by omega) false
    intro hneg
    rw [hneg] at hscore
    rcases hscore with h | h | h <;> cases h

/-- Witness for C11: a node whose only child is a board won by X, scoring 9. -/
theorem bestBranch_first_max_witness :
    ∃ pre c post,
      [createNode [Cell.x, Cell.x, Cell.x, Cell.o, Cell.o, Cell.empty, Cell.empty,
        Cell.empty, Cell.empty] 1] = pre ++ c :: post ∧
      bestBranch
        { board := [Cell.x, Cell.x, Cell.empty, Cell.o, Cell.o, Cell.empty, Cell.empty,
            Cell.empty, Cell.empty]
          depth := 0
          children := [createNode [Cell.x, Cell.x, Cell.x, Cell.o, Cell.o, Cell.empty,
            Cell.empty, Cell.empty, Cell.empty] 1]
          move := none
          value := 0 } = some c ∧
      (∀ c' ∈ [createNode [Cell.x, Cell.x, Cell.x, Cell.o, Cell.o, Cell.empty, Cell.empty,
        Cell.empty, Cell.empty] 1], Num.le (minimax c' false) (minimax c false)) ∧
      (∀ c' ∈ pre, Num.gt (minimax c false) (minimax c' false) = true) :=
  (bestBranch_first_max
    { board := [Cell.x, Cell.x, Cell.empty, Cell.o, Cell.o, Cell.empty, Cell.empty,
        Cell.empty, Cell.empty]
      depth := 0
      children := [createNode [Cell.x, Cell.x, Cell.x, Cell.o, Cell.o, Cell.empty,
        Cell.empty, Cell.empty, Cell.empty] 1]
      move := none
      value := 0 }).2.1
    ⟨_, List.mem_cons_self _ _, by decide⟩

end TicTacToe
